import Mathlib

/-!
Verification development for the incremental JSON lexer / structural parser
prototype in `src/lib.rs` (crate `json-parser`).

The Rust code works on `&str` buffers.  We embed a buffer as a `List Char`
together with an explicit model of Rust's *byte-offset* string slicing:
`data[a..b]` on a `&str` panics unless `a` and `b` are UTF-8 character
boundaries inside the string, and the source code produces its offsets by
mixing `chars().enumerate()` counts (character counts) with byte indices.
The embedding therefore keeps byte offsets explicit (`Char.utf8Size`,
`utf8Len`, `dropBytes`, `takeBytes`, `sliceBytes`) and represents a Rust
panic (boundary violation / out of bounds) as an explicit outcome.

Rust's `unimplemented!()` macro (used by `tokenize_reading_hex` and by the
catch-all arm of `Parser::parse`) also aborts the program, but for a
different reason than a slicing violation; the two are kept apart as the
outcomes `notImplemented` and `panicked`.
-/

namespace JsonSpec

/-- Total UTF-8 byte length of a buffer, matching Rust's `str::len`. -/
def utf8Len (s : List Char) : Nat :=
  match s with
  | [] => 0
  | c :: cs => c.utf8Size + utf8Len cs

/-- Model of taking the first `n` BYTES of a buffer as characters.  Returns
`none` when `n` is not a character boundary or exceeds the buffer, the
situations in which Rust string slicing panics. -/
def takeBytes : List Char → Nat → Option (List Char)
  | _, 0 => some []
  | [], _ + 1 => none
  | c :: cs, n + 1 =>
    if c.utf8Size ≤ n + 1 then (takeBytes cs (n + 1 - c.utf8Size)).map (c :: ·)
    else none

/-- Model of dropping the first `n` BYTES of a buffer, i.e. Rust's
`&data[n..]`.  Returns `none` exactly when Rust would panic. -/
def dropBytes : List Char → Nat → Option (List Char)
  | s, 0 => some s
  | [], _ + 1 => none
  | c :: cs, n + 1 =>
    if c.utf8Size ≤ n + 1 then dropBytes cs (n + 1 - c.utf8Size)
    else none

/-- Model of Rust's `&data[a..b]`: `none` exactly when Rust panics (range
reversed, ends out of bounds, or an end not on a character boundary). -/
def sliceBytes (s : List Char) (a b : Nat) : Option (List Char) :=
  if a ≤ b then (dropBytes s a).bind (fun t => takeBytes t (b - a))
  else none

/-- Rust's `char::is_whitespace`: the Unicode `White_Space` property. -/
def rustIsWhitespace (c : Char) : Bool :=
  (0x09 ≤ c.toNat && c.toNat ≤ 0x0D) || c.toNat == 0x20 || c.toNat == 0x85 ||
  c.toNat == 0xA0 || c.toNat == 0x1680 ||
  (0x2000 ≤ c.toNat && c.toNat ≤ 0x200A) ||
  c.toNat == 0x2028 || c.toNat == 0x2029 || c.toNat == 0x202F ||
  c.toNat == 0x205F || c.toNat == 0x3000

/-- Token kinds, from `enum JT` in the source. -/
inductive JT
  | OpenObject
  | CloseObject
  | OpenArray
  | CloseArray
  | Colon
  | Comma
  | WhiteSpace
  | JString
  | JNumber
deriving DecidableEq, Repr

/-- Provenance of the returned token slice: the source returns either
`&data[a..b]` (a borrow of the caller's buffer) or `&self.scratch` (a
borrow of the owned scratch buffer). -/
inductive SliceSrc
  | fromData (a b : Nat)
  | fromScratch
deriving DecidableEq, Repr

/-- Struct `JValues` from the source.  `slice` holds the dereferenced
characters of the returned `&str`; `src` records which buffer the Rust
slice borrows from (and at which byte offsets, for the zero-copy case). -/
structure JValues where
  slice : List Char
  src : SliceSrc
  jt : JT
deriving DecidableEq, Repr

/-- Enum `TokenizerErrors` from the source. -/
inductive TokenizerErrors
  | EndOfData
  | NeedMoreData
  | WrongEscapeSequence (n : Nat)
  | WrongFormat (n : Nat)
deriving DecidableEq, Repr

/-- Enum `TokenizerState` from the source. -/
inductive TokenizerState
  | Base
  | ZeroCopyString
  | StartEscaping
  | CopyingString
  | ReadingHex (acc : Nat) (remaining : Int)
deriving DecidableEq, Repr

/-- Struct `Tokenizer` from the source; `index` is a BYTE offset into the
current buffer, as in the Rust code. -/
structure Tokenizer where
  scratch : List Char
  state : TokenizerState
  index : Nat
deriving DecidableEq, Repr

/-- Outcome of one `tokenize` call.  `ok`/`err` mirror the source's
`Result`; `panicked` marks a Rust slicing panic (see `sliceBytes`),
`notImplemented` marks reaching `unimplemented!()`. -/
inductive TokOut
  | ok (v : JValues)
  | err (e : TokenizerErrors)
  | panicked
  | notImplemented
deriving DecidableEq, Repr

/-- Result of one of the per-state functions: either a final outcome
(together with the mutated tokenizer) or a tail call to another per-state
function (the source's `return self.tokenize_xxx(data)` calls), which the
driver `tokenize` dispatches on the stored state. -/
inductive LoopOut
  | done (tk : Tokenizer) (out : TokOut)
  | next (tk : Tokenizer)
deriving DecidableEq, Repr

/-- Escape table of `tokenize_start_escaping` (source lines 124-139). -/
inductive EscClass
  | simple (d : Char)
  | uHex
  | bad
deriving DecidableEq, Repr

/-- Classification of the single character examined after a backslash,
exactly the `match c` table in `tokenize_start_escaping`. -/
def escClass (c : Char) : EscClass :=
  if c = '"' then .simple '"'
  else if c = '\\' then .simple '\\'
  else if c = '/' then .simple '/'
  else if c = 'b' then .simple (Char.ofNat 0x08)
  else if c = 'f' then .simple (Char.ofNat 0x0C)
  else if c = 'n' then .simple '\n'
  else if c = 'r' then .simple '\r'
  else if c = 't' then .simple '\t'
  else if c = 'u' then .uHex
  else .bad

/-- Loop of `tokenize_base` (source lines 57-84): iterates over
`data[self.index..].chars().enumerate()`; `n` is the entry value of
`self.index`, `scr` the entry scratch (both unchanged by this loop until a
branch fires), `i` the enumeration counter (a CHARACTER count that the
source then uses as a byte offset). -/
def baseLoop (data : List Char) (scr : List Char) (n : Nat) :
    List Char → Nat → LoopOut
  | [], _ => .done ⟨scr, .Base, n⟩ (.err .NeedMoreData)
  | c :: rest, i =>
    if c = '"' then
      .next ⟨scr, .ZeroCopyString, n + i + 1⟩
    else if c = '{' then baseEmit data scr n i .OpenObject
    else if c = '}' then baseEmit data scr n i .CloseObject
    else if c = '[' then baseEmit data scr n i .OpenArray
    else if c = ']' then baseEmit data scr n i .CloseArray
    else if c = ':' then baseEmit data scr n i .Colon
    else if c = ',' then baseEmit data scr n i .Comma
    else if rustIsWhitespace c then baseLoop data scr n rest (i + 1)
    else .done ⟨scr, .Base, n⟩ (.err (.WrongFormat (n + i)))
where
  /-- Emission of a single-character structural token: the source sets
  `begin = self.index + i`, `self.index += i + 1` and returns
  `&data[begin..self.index]`. -/
  baseEmit (data scr : List Char) (n i : Nat) (jt : JT) : LoopOut :=
    match sliceBytes data (n + i) (n + i + 1) with
    | none => .done ⟨scr, .Base, n + i + 1⟩ .panicked
    | some s => .done ⟨scr, .Base, n + i + 1⟩ (.ok ⟨s, .fromData (n + i) (n + i + 1), jt⟩)

/-- Body of `fn tokenize_base` (source lines 56-86). -/
def tokenize_base (tk : Tokenizer) (data : List Char) : LoopOut :=
  match dropBytes data tk.index with
  | none => .done tk .panicked
  | some suffix => baseLoop data tk.scratch tk.index suffix 0

/-- Loop of `tokenize_zero_copy_string` (source lines 92-111); `begin` is
the entry `self.index`, `scr0` the entry scratch. -/
def zcLoop (data : List Char) (scr0 : List Char) (begin : Nat) :
    List Char → Nat → LoopOut
  | [], _ =>
    match dropBytes data begin with
    | none => .done ⟨scr0, .ZeroCopyString, begin⟩ .panicked
    | some s => .done ⟨s, .CopyingString, utf8Len data⟩ (.err .NeedMoreData)
  | c :: rest, i =>
    if c = '"' then
      match sliceBytes data begin (begin + i + 1 - 1) with
      | none => .done ⟨scr0, .ZeroCopyString, begin⟩ .panicked
      | some s =>
        .done ⟨scr0, .Base, begin + i + 1⟩
          (.ok ⟨s, .fromData begin (begin + i + 1 - 1), .JString⟩)
    else if c = '\\' then
      match sliceBytes data begin (begin + i + 1 - 1) with
      | none => .done ⟨scr0, .ZeroCopyString, begin⟩ .panicked
      | some s => .next ⟨s, .StartEscaping, begin + i + 1⟩
    else zcLoop data scr0 begin rest (i + 1)

/-- Body of `fn tokenize_zero_copy_string` (source lines 87-118).  On the
buffer-exhausted path the source truncates `scratch`, copies
`&data[begin..]` into it, switches to `CopyingString` and sets
`self.index = data.len()` (a byte length). -/
def tokenize_zero_copy_string (tk : Tokenizer) (data : List Char) : LoopOut :=
  match dropBytes data tk.index with
  | none => .done tk .panicked
  | some suffix => zcLoop data tk.scratch tk.index suffix 0

/-- Body of `fn tokenize_start_escaping` (source lines 119-147): looks at
`data[self.index..].chars().nth(0)`, decodes it through the escape table,
appends the decoded character to `scratch` and advances one byte into
`CopyingString`; `u` advances into `ReadingHex(0, 4)`; anything else is
`WrongEscapeSequence(self.index)`; an empty remainder is `NeedMoreData`
with no state change. -/
def tokenize_start_escaping (tk : Tokenizer) (data : List Char) : LoopOut :=
  match dropBytes data tk.index with
  | none => .done tk .panicked
  | some [] => .done tk (.err .NeedMoreData)
  | some (c :: _) =>
    match escClass c with
    | .simple d => .next ⟨tk.scratch ++ [d], .CopyingString, tk.index + 1⟩
    | .uHex => .next ⟨tk.scratch, .ReadingHex 0 4, tk.index + 1⟩
    | .bad => .done tk (.err (.WrongEscapeSequence tk.index))

/-- Loop of `tokenize_copying_string` (source lines 152-169); `n` is the
entry `self.index`, `scr` the running scratch (the loop pushes every
consumed character onto it). -/
def copyLoop (data : List Char) (n : Nat) :
    List Char → List Char → Nat → LoopOut
  | scr, [], _ => .done ⟨scr, .CopyingString, utf8Len data⟩ (.err .NeedMoreData)
  | scr, c :: rest, i =>
    if c = '"' then
      .done ⟨scr, .Base, n + i + 1⟩ (.ok ⟨scr, .fromScratch, .JString⟩)
    else if c = '\\' then .next ⟨scr, .StartEscaping, n + i + 1⟩
    else copyLoop data n (scr ++ [c]) rest (i + 1)

/-- Body of `fn tokenize_copying_string` (source lines 148-173). -/
def tokenize_copying_string (tk : Tokenizer) (data : List Char) : LoopOut :=
  match dropBytes data tk.index with
  | none => .done tk .panicked
  | some suffix => copyLoop data tk.index tk.scratch suffix 0

/-- Body of `fn tokenize_reading_hex` (source lines 174-179): the body is
just `unimplemented!()`, which aborts. -/
def tokenize_reading_hex (tk : Tokenizer) (_data : List Char) : LoopOut :=
  .done tk .notImplemented

/-- One dispatch of `fn tokenize` (source lines 47-55) into the per-state
function, stopping at the next tail call. -/
def tokenizeStep (tk : Tokenizer) (data : List Char) : LoopOut :=
  match tk.state with
  | .Base => tokenize_base tk data
  | .ZeroCopyString => tokenize_zero_copy_string tk data
  | .StartEscaping => tokenize_start_escaping tk data
  | .CopyingString => tokenize_copying_string tk data
  | .ReadingHex _ _ => tokenize_reading_hex tk data

theorem utf8Len_nil : utf8Len [] = 0 := rfl

theorem utf8Len_cons (c : Char) (cs : List Char) :
    utf8Len (c :: cs) = c.utf8Size + utf8Len cs := rfl

theorem dropBytes_some_len {s t : List Char} {n : Nat}
    (h : dropBytes s n = some t) : n + utf8Len t = utf8Len s := by
  induction s generalizing n with
  | nil =>
    match n with
    | 0 => simp [dropBytes] at h; subst h; omega
    | n + 1 => simp [dropBytes] at h
  | cons c cs ih =>
    match n with
    | 0 => simp [dropBytes] at h; subst h; omega
    | n + 1 =>
      unfold dropBytes at h
      split at h
      · have := ih h
        rw [utf8Len_cons]
        omega
      · cases h

theorem dropBytes_le {s t : List Char} {n : Nat}
    (h : dropBytes s n = some t) : n ≤ utf8Len s := by
  have := dropBytes_some_len h
  omega

theorem utf8Len_pos_of_mem {s : List Char} (h : s ≠ []) : 0 < utf8Len s := by
  match s with
  | [] => exact absurd rfl h
  | c :: cs =>
    have := Char.utf8Size_pos c
    rw [utf8Len_cons]
    omega

theorem baseLoop_next {data scr : List Char} {n : Nat} {tk2 : Tokenizer} :
    ∀ {suffix : List Char} {i : Nat},
    baseLoop data scr n suffix i = .next tk2 → n < tk2.index := by
  intro suffix
  induction suffix with
  | nil => intro i h; simp [baseLoop] at h
  | cons c rest ih =>
    intro i h
    unfold baseLoop at h
    split at h
    · cases h; simp only []; omega
    · split at h
      · unfold baseLoop.baseEmit at h; split at h <;> cases h
      · split at h
        · unfold baseLoop.baseEmit at h; split at h <;> cases h
        · split at h
          · unfold baseLoop.baseEmit at h; split at h <;> cases h
          · split at h
            · unfold baseLoop.baseEmit at h; split at h <;> cases h
            · split at h
              · unfold baseLoop.baseEmit at h; split at h <;> cases h
              · split at h
                · unfold baseLoop.baseEmit at h; split at h <;> cases h
                · split at h
                  · exact ih h
                  · cases h

theorem zcLoop_next {data scr0 : List Char} {begin : Nat} {tk2 : Tokenizer} :
    ∀ {suffix : List Char} {i : Nat},
    zcLoop data scr0 begin suffix i = .next tk2 → begin < tk2.index := by
  intro suffix
  induction suffix with
  | nil => intro i h; unfold zcLoop at h; split at h <;> cases h
  | cons c rest ih =>
    intro i h
    unfold zcLoop at h
    split at h
    · split at h <;> cases h
    · split at h
      · split at h
        · cases h
        · cases h; simp only []; omega
      · exact ih h

theorem copyLoop_next {data : List Char} {n : Nat} {tk2 : Tokenizer} :
    ∀ {suffix scr : List Char} {i : Nat},
    copyLoop data n scr suffix i = .next tk2 → n < tk2.index := by
  intro suffix
  induction suffix with
  | nil => intro scr i h; simp [copyLoop] at h
  | cons c rest ih =>
    intro scr i h
    unfold copyLoop at h
    split at h
    · cases h
    · split at h
      · cases h; simp only []; omega
      · exact ih h

theorem tokenizeStep_next {tk : Tokenizer} {data : List Char} {tk2 : Tokenizer}
    (h : tokenizeStep tk data = .next tk2) :
    tk.index < tk2.index ∧ tk.index ≤ utf8Len data := by
  unfold tokenizeStep at h
  split at h
  · unfold tokenize_base at h
    split at h
    · cases h
    · exact ⟨baseLoop_next h, dropBytes_le (by assumption)⟩
  · unfold tokenize_zero_copy_string at h
    split at h
    · cases h
    · exact ⟨zcLoop_next h, dropBytes_le (by assumption)⟩
  · unfold tokenize_start_escaping at h
    split at h
    · cases h
    · cases h
    · split at h
      · cases h; simp only []
        exact ⟨by omega, dropBytes_le (by assumption)⟩
      · cases h; simp only []
        exact ⟨by omega, dropBytes_le (by assumption)⟩
      · cases h
  · unfold tokenize_copying_string at h
    split at h
    · cases h
    · exact ⟨copyLoop_next h, dropBytes_le (by assumption)⟩
  · unfold tokenize_reading_hex at h; cases h

/-- Fn `tokenize` (source lines 47-55): dispatch on the stored state;
the source's tail calls between the per-state functions are the `next`
steps here. -/
def tokenize (tk : Tokenizer) (data : List Char) : Tokenizer × TokOut :=
  match h : tokenizeStep tk data with
  | .done tk2 out => (tk2, out)
  | .next tk2 => tokenize tk2 data
termination_by utf8Len data + 1 - tk.index
decreasing_by
  have := tokenizeStep_next h
  omega

theorem tokenize_done {tk : Tokenizer} {data : List Char} {tk2 : Tokenizer}
    {out : TokOut} (h : tokenizeStep tk data = .done tk2 out) :
    tokenize tk data = (tk2, out) := by
  rw [tokenize]
  split
  · rename_i h2; rw [h] at h2; cases h2; rfl
  · rename_i h2; rw [h] at h2; cases h2

theorem tokenize_next {tk : Tokenizer} {data : List Char} {tk2 : Tokenizer}
    (h : tokenizeStep tk data = .next tk2) :
    tokenize tk data = tokenize tk2 data := by
  rw [tokenize]
  split
  · rename_i h2; rw [h] at h2; cases h2
  · rename_i h2; rw [h] at h2; cases h2; rfl

/-- Resumption protocol of the unit tests (`tokenize_string_multiple_buffers`):
after a `NeedMoreData` the caller sets `tokenizer.index = 0` and calls
`tokenize` again with the next buffer; any other outcome stops the run. -/
def feedChunks : Tokenizer → List (List Char) → Tokenizer × TokOut
  | tk, [] => (tk, .err .NeedMoreData)
  | tk, ch :: cs =>
    match tokenize tk ch with
    | (tk2, .err .NeedMoreData) => feedChunks ⟨tk2.scratch, tk2.state, 0⟩ cs
    | r => r

/-- Enum `F` from the source (parser stack frames / result kinds). -/
inductive F
  | InObject
  | InObjectAfterKey
  | InArray
  | Key
  | JString
  | JNumber
deriving DecidableEq, Repr

/-- Enum `PE` from the source (parser errors). -/
inductive PE
  | EndOfData
  | NeedMoreData
  | WrongEscapeSequence (n : Nat)
  | WrongFormat (n : Nat)
deriving DecidableEq, Repr

/-- Impl `From<TokenizerErrors> for PE` (source lines 199-208). -/
def peFrom : TokenizerErrors → PE
  | .EndOfData => .EndOfData
  | .NeedMoreData => .NeedMoreData
  | .WrongEscapeSequence u => .WrongEscapeSequence u
  | .WrongFormat u => .WrongFormat u

/-- Struct `Parser` from the source.  The Rust `Vec` grows at the back and
`last()` reads the back; here the stack is stored top-first, so `push` is
`cons`, `last()` is `head?` and `pop` is `tail`. -/
structure Parser where
  stack : List F
  tokenizer : Tokenizer
deriving DecidableEq, Repr

/-- Outcome of one `parse` call: `ok` carries the source's `PR` pair
`(F, Option<&str>)`; `panicked` is a tokenizer slicing panic surfacing
through the call; `notImplemented` marks the `unimplemented!()` arms. -/
inductive POut
  | ok (r : F × Option (List Char))
  | err (e : PE)
  | panicked
  | notImplemented
deriving DecidableEq, Repr

/-- Fn `Parser::parse` (source lines 224-259): reads the pre-call cursor,
drives the tokenizer once, then dispatches on `(stack.last(), token.jt)`.
Every pair not matched by one of the written arms hits the source's
`unimplemented!()` catch-all. -/
def parse (p : Parser) (data : List Char) : Parser × POut :=
  match tokenize p.tokenizer data with
  | (tk2, .err e) => (⟨p.stack, tk2⟩, .err (peFrom e))
  | (tk2, .panicked) => (⟨p.stack, tk2⟩, .panicked)
  | (tk2, .notImplemented) => (⟨p.stack, tk2⟩, .notImplemented)
  | (tk2, .ok token) =>
    match p.stack.head?, token.jt with
    | none, .OpenObject => (⟨F.InObject :: p.stack, tk2⟩, .ok (F.InObject, none))
    | none, .OpenArray => (⟨F.InArray :: p.stack, tk2⟩, .ok (F.InArray, none))
    | none, .JString => (⟨p.stack, tk2⟩, .ok (F.JString, some token.slice))
    | none, .JNumber => (⟨p.stack, tk2⟩, .ok (F.JNumber, none))
    | none, _ => (⟨p.stack, tk2⟩, .err (.WrongFormat p.tokenizer.index))
    | some .InObject, .JString =>
      (⟨F.Key :: p.stack, tk2⟩, .ok (F.JString, some token.slice))
    | some .InObjectAfterKey, .JString =>
      (⟨p.stack.tail, tk2⟩, .ok (F.JString, some token.slice))
    | _, _ => (⟨p.stack, tk2⟩, .notImplemented)

/-- Buffers in which every character is a single UTF-8 byte; on such
buffers the source's character counts agree with its byte offsets. -/
def allSingleByte (s : List Char) : Bool := s.all (fun c => c.utf8Size == 1)

/-- Characters that are neither the closing quote nor a backslash, i.e.
the characters the string scanning loops pass over. -/
def noSpecial (s : List Char) : Bool := s.all (fun c => c ≠ '"' && c ≠ '\\')

/-- Mode of the abstract (buffer-boundary-free) string scanner: inside the
literal, or just after a backslash. -/
inductive AMode
  | instr
  | esc
deriving DecidableEq, Repr

/-- Outcome of the abstract string scanner on a character sequence. -/
inductive AOut
  | tok (t : List Char)
  | more (m : AMode) (acc : List Char)
  | badEsc
  | uStub
deriving DecidableEq, Repr

/-- Abstract scanner for the inside of a string literal: one character at
a time, no buffers, no byte offsets.  `acc` is the decoded content so
far.  The concrete tokenizer is proven to refine this machine on
single-byte buffers (`corr`). -/
def absStr : AMode → List Char → List Char → AOut
  | .instr, acc, [] => .more .instr acc
  | .instr, acc, c :: rest =>
    if c = '"' then .tok acc
    else if c = '\\' then absStr .esc acc rest
    else absStr .instr (acc ++ [c]) rest
  | .esc, acc, [] => .more .esc acc
  | .esc, acc, c :: rest =>
    match escClass c with
    | .simple d => absStr .instr (acc ++ [d]) rest
    | .uHex => .uStub
    | .bad => .badEsc

/-- Concrete tokenizer state corresponding to an abstract scanner mode. -/
def modeState : AMode → TokenizerState
  | .instr => .CopyingString
  | .esc => .StartEscaping

/-- Correspondence between the result of one concrete `tokenize` call on
buffer `data` and the abstract scanner's verdict on the same characters. -/
def outMatches (data : List Char) (r : Tokenizer × TokOut) : AOut → Prop
  | .tok t => (∃ src, r.2 = .ok ⟨t, src, .JString⟩) ∧ r.1.state = .Base
  | .more m acc => r.2 = .err .NeedMoreData ∧ r.1.state = modeState m ∧
      r.1.scratch = acc ∧ r.1.index = utf8Len data
  | .badEsc => ∃ n, r.2 = .err (.WrongEscapeSequence n)
  | .uStub => r.2 = .notImplemented

/-- Correspondence at the level of a whole chunked run, where only the
final verdict (not intermediate cursors) is observable. -/
def feedMatches (r : Tokenizer × TokOut) : AOut → Prop
  | .tok t => ∃ src, r.2 = .ok ⟨t, src, .JString⟩
  | .more _ _ => r.2 = .err .NeedMoreData
  | .badEsc => ∃ n, r.2 = .err (.WrongEscapeSequence n)
  | .uStub => r.2 = .notImplemented

/-- Continuation of an abstract verdict on further input: a suspended scan
resumes, any settled verdict stands. -/
def resumeOut (a : AOut) (rest : List Char) : AOut :=
  match a with
  | .more m2 acc2 => absStr m2 acc2 rest
  | r => r

theorem absStr_append (m : AMode) (acc xs ys : List Char) :
    absStr m acc (xs ++ ys) = resumeOut (absStr m acc xs) ys := by
  induction xs generalizing m acc with
  | nil => cases m <;> simp [absStr, resumeOut]
  | cons c rest ih =>
    cases m with
    | instr =>
      by_cases h1 : c = '"'
      · subst h1; simp [absStr, resumeOut]
      · by_cases h2 : c = '\\'
        · subst h2; simp only [List.cons_append, absStr, if_neg (by decide : ¬ ('\\' : Char) = '"'), if_pos rfl]
          exact ih .esc acc
        · simp only [List.cons_append, absStr, if_neg h1, if_neg h2]
          exact ih .instr (acc ++ [c])
    | esc =>
      simp only [List.cons_append, absStr]
      cases hc : escClass c <;> simp [ih, resumeOut]

theorem absStr_instr_plain {xs : List Char} (h : noSpecial xs = true) (acc : List Char) :
    absStr .instr acc xs = .more .instr (acc ++ xs) := by
  induction xs generalizing acc with
  | nil => simp [absStr]
  | cons c rest ih =>
    simp only [noSpecial, List.all_cons, Bool.and_eq_true, decide_eq_true_eq] at h
    obtain ⟨⟨h1, h2⟩, h3⟩ := h
    simp only [absStr, if_neg h1, if_neg h2]
    rw [ih h3]
    simp

theorem absStr_instr_quote {pre : List Char} (h : noSpecial pre = true)
    (acc post : List Char) :
    absStr .instr acc (pre ++ '"' :: post) = .tok (acc ++ pre) := by
  induction pre generalizing acc with
  | nil => simp [absStr]
  | cons c rest ih =>
    simp only [noSpecial, List.all_cons, Bool.and_eq_true, decide_eq_true_eq] at h
    obtain ⟨⟨h1, h2⟩, h3⟩ := h
    simp only [List.cons_append, List.append_eq, absStr, if_neg h1, if_neg h2]
    rw [ih h3]
    simp

theorem absStr_instr_slash {pre : List Char} (h : noSpecial pre = true)
    (acc post : List Char) :
    absStr .instr acc (pre ++ '\\' :: post) = absStr .esc (acc ++ pre) post := by
  induction pre generalizing acc with
  | nil =>
    simp only [List.nil_append, absStr, if_neg (by decide : ¬ ('\\' : Char) = '"'), if_pos rfl]
    simp
  | cons c rest ih =>
    simp only [noSpecial, List.all_cons, Bool.and_eq_true, decide_eq_true_eq] at h
    obtain ⟨⟨h1, h2⟩, h3⟩ := h
    simp only [List.cons_append, List.append_eq, absStr, if_neg h1, if_neg h2]
    rw [ih h3]
    simp

theorem allSingleByte_utf8Len {s : List Char} (h : allSingleByte s = true) :
    utf8Len s = s.length := by
  induction s with
  | nil => rfl
  | cons c cs ih =>
    simp only [allSingleByte, List.all_cons, Bool.and_eq_true, beq_iff_eq] at h
    rw [utf8Len_cons, List.length_cons, h.1,
      ih (by simp only [allSingleByte]; exact h.2)]
    omega

theorem allSingleByte_mem {s : List Char} (h : allSingleByte s = true)
    {c : Char} (hc : c ∈ s) : c.utf8Size = 1 := by
  simp only [allSingleByte, List.all_eq_true, beq_iff_eq] at h
  exact h c hc

theorem allSingleByte_of_forall {s : List Char}
    (h : ∀ c ∈ s, c.utf8Size = 1) : allSingleByte s = true := by
  simp only [allSingleByte, List.all_eq_true, beq_iff_eq]
  exact h

theorem allSingleByte_drop {s : List Char} (h : allSingleByte s = true)
    (n : Nat) : allSingleByte (s.drop n) = true :=
  allSingleByte_of_forall fun c hc => allSingleByte_mem h (List.mem_of_mem_drop hc)

theorem dropBytes_ascii {s : List Char} (h : allSingleByte s = true) :
    ∀ {n : Nat}, n ≤ s.length → dropBytes s n = some (s.drop n) := by
  induction s with
  | nil =>
    intro n hn
    simp only [List.length_nil, Nat.le_zero] at hn
    subst hn
    rfl
  | cons c cs ih =>
    intro n hn
    match n with
    | 0 => rfl
    | n + 1 =>
      simp only [allSingleByte, List.all_cons, Bool.and_eq_true, beq_iff_eq] at h
      unfold dropBytes
      rw [if_pos (by omega : c.utf8Size ≤ n + 1), h.1]
      simp only [Nat.add_sub_cancel, List.drop_succ_cons]
      exact ih (by simp only [allSingleByte]; exact h.2) (by simpa using hn)

theorem takeBytes_ascii_append {s : List Char} (h : allSingleByte s = true)
    (z : List Char) : takeBytes (s ++ z) s.length = some s := by
  induction s with
  | nil => simp [takeBytes]
  | cons c cs ih =>
    simp only [allSingleByte, List.all_cons, Bool.and_eq_true, beq_iff_eq] at h
    simp only [List.cons_append, List.length_cons]
    unfold takeBytes
    rw [if_pos (by omega : c.utf8Size ≤ cs.length + 1), h.1]
    simp only [Nat.add_sub_cancel]
    rw [ih (by simp only [allSingleByte]; exact h.2)]
    rfl

theorem takeBytes_ascii {s : List Char} (h : allSingleByte s = true) :
    ∀ {n : Nat}, n ≤ s.length → takeBytes s n = some (s.take n) := by
  intro n hn
  have hs : s = s.take n ++ s.drop n := (List.take_append_drop n s).symm
  have htake : allSingleByte (s.take n) = true :=
    allSingleByte_of_forall fun c hc => allSingleByte_mem h (List.mem_of_mem_take hc)
  have hlen : (s.take n).length = n := List.length_take_of_le hn
  calc takeBytes s n = takeBytes (s.take n ++ s.drop n) ((s.take n).length) := by
        rw [← hs, hlen]
    _ = some (s.take n) := takeBytes_ascii_append htake _

theorem sliceBytes_ascii {s : List Char} (h : allSingleByte s = true)
    {a b : Nat} (hab : a ≤ b) (hb : b ≤ s.length) :
    sliceBytes s a b = some ((s.drop a).take (b - a)) := by
  unfold sliceBytes
  rw [if_pos hab, dropBytes_ascii h (by omega)]
  rw [Option.some_bind]
  exact takeBytes_ascii (allSingleByte_drop h a) (by rw [List.length_drop]; omega)

theorem noSpecial_cons {c : Char} {s : List Char} (h1 : c ≠ '"') (h2 : c ≠ '\\')
    (h3 : noSpecial s = true) : noSpecial (c :: s) = true := by
  simp only [noSpecial, List.all_cons, Bool.and_eq_true, decide_eq_true_eq] at h3 ⊢
  exact ⟨⟨h1, h2⟩, h3⟩

theorem copyLoop_run (data : List Char) (n : Nat) :
    ∀ (suffix scr : List Char) (i : Nat),
    (∃ pre post, suffix = pre ++ '"' :: post ∧ noSpecial pre = true ∧
      copyLoop data n scr suffix i =
        .done ⟨scr ++ pre, .Base, n + (i + pre.length) + 1⟩
          (.ok ⟨scr ++ pre, .fromScratch, .JString⟩)) ∨
    (∃ pre post, suffix = pre ++ '\\' :: post ∧ noSpecial pre = true ∧
      copyLoop data n scr suffix i =
        .next ⟨scr ++ pre, .StartEscaping, n + (i + pre.length) + 1⟩) ∨
    (noSpecial suffix = true ∧
      copyLoop data n scr suffix i =
        .done ⟨scr ++ suffix, .CopyingString, utf8Len data⟩ (.err .NeedMoreData)) := by
  intro suffix
  induction suffix with
  | nil =>
    intro scr i
    right; right
    exact ⟨rfl, by simp [copyLoop]⟩
  | cons c rest ih =>
    intro scr i
    by_cases h1 : c = '"'
    · subst h1
      left
      refine ⟨[], rest, by simp, rfl, ?_⟩
      simp [copyLoop]
    · by_cases h2 : c = '\\'
      · subst h2
        right; left
        refine ⟨[], rest, by simp, rfl, ?_⟩
        simp [copyLoop]
      · have hstep : copyLoop data n scr (c :: rest) i =
            copyLoop data n (scr ++ [c]) rest (i + 1) := by
          rw [copyLoop]; rw [if_neg h1, if_neg h2]
        rcases ih (scr ++ [c]) (i + 1) with
          ⟨pre, post, he, hns, hr⟩ | ⟨pre, post, he, hns, hr⟩ | ⟨hns, hr⟩
        · left
          refine ⟨c :: pre, post, by simp [he], noSpecial_cons h1 h2 hns, ?_⟩
          rw [hstep, hr]
          have e1 : scr ++ [c] ++ pre = scr ++ c :: pre := by simp
          have e2 : n + (i + 1 + pre.length) + 1 = n + (i + (c :: pre).length) + 1 := by
            simp only [List.length_cons]; omega
          rw [e1, e2]
        · right; left
          refine ⟨c :: pre, post, by simp [he], noSpecial_cons h1 h2 hns, ?_⟩
          rw [hstep, hr]
          have e1 : scr ++ [c] ++ pre = scr ++ c :: pre := by simp
          have e2 : n + (i + 1 + pre.length) + 1 = n + (i + (c :: pre).length) + 1 := by
            simp only [List.length_cons]; omega
          rw [e1, e2]
        · right; right
          refine ⟨noSpecial_cons h1 h2 hns, ?_⟩
          rw [hstep, hr]
          have e1 : scr ++ [c] ++ rest = scr ++ c :: rest := by simp
          rw [e1]

theorem zcLoop_run {data : List Char} (hascii : allSingleByte data = true)
    (scr0 : List Char) (begin : Nat) (hb : begin ≤ data.length) :
    ∀ (suffix : List Char) (i : Nat), suffix = data.drop (begin + i) →
    (∃ pre post, suffix = pre ++ '"' :: post ∧ noSpecial pre = true ∧
      zcLoop data scr0 begin suffix i =
        .done ⟨scr0, .Base, begin + (i + pre.length) + 1⟩
          (.ok ⟨(data.drop begin).take (i + pre.length),
                .fromData begin (begin + (i + pre.length) + 1 - 1), .JString⟩)) ∨
    (∃ pre post, suffix = pre ++ '\\' :: post ∧ noSpecial pre = true ∧
      zcLoop data scr0 begin suffix i =
        .next ⟨(data.drop begin).take (i + pre.length), .StartEscaping,
               begin + (i + pre.length) + 1⟩) ∨
    (noSpecial suffix = true ∧
      zcLoop data scr0 begin suffix i =
        .done ⟨data.drop begin, .CopyingString, utf8Len data⟩ (.err .NeedMoreData)) := by
  intro suffix
  induction suffix with
  | nil =>
    intro i hsuf
    right; right
    refine ⟨rfl, ?_⟩
    rw [zcLoop]
    rw [dropBytes_ascii hascii hb]
  | cons c rest ih =>
    intro i hsuf
    have hlt : begin + i < data.length := by
      have := congrArg List.length hsuf
      simp only [List.length_cons, List.length_drop] at this
      omega
    by_cases h1 : c = '"'
    · subst h1
      left
      refine ⟨[], rest, by simp, rfl, ?_⟩
      rw [zcLoop]; rw [if_pos rfl]
      have e0 : begin + i + 1 - 1 = begin + i := by omega
      rw [e0, sliceBytes_ascii hascii (by omega) (by omega)]
      simp only [List.length_nil, Nat.add_zero]
      have e1 : begin + i - begin = i := by omega
      rw [e1, e0]
    · by_cases h2 : c = '\\'
      · subst h2
        right; left
        refine ⟨[], rest, by simp, rfl, ?_⟩
        rw [zcLoop]; rw [if_neg (by decide : ¬ ('\\' : Char) = '"'), if_pos rfl]
        have e0 : begin + i + 1 - 1 = begin + i := by omega
        rw [e0, sliceBytes_ascii hascii (by omega) (by omega)]
        simp only [List.length_nil, Nat.add_zero]
        have e1 : begin + i - begin = i := by omega
        rw [e1]
      · have hstep : zcLoop data scr0 begin (c :: rest) i =
            zcLoop data scr0 begin rest (i + 1) := by
          rw [zcLoop]; rw [if_neg h1, if_neg h2]
        have hrest : rest = data.drop (begin + (i + 1)) := by
          have : (data.drop (begin + i)).tail = data.drop (begin + i + 1) := by
            rw [← List.drop_drop]
            simp [List.drop_one]
          rw [← hsuf] at this
          simp only [List.tail_cons] at this
          rw [this]
          congr 1
        rcases ih (i + 1) hrest with
          ⟨pre, post, he, hns, hr⟩ | ⟨pre, post, he, hns, hr⟩ | ⟨hns, hr⟩
        · left
          refine ⟨c :: pre, post, by simp [he], noSpecial_cons h1 h2 hns, ?_⟩
          rw [hstep, hr]
          have e1 : i + 1 + pre.length = i + (c :: pre).length := by
            simp only [List.length_cons]; omega
          rw [e1]
        · right; left
          refine ⟨c :: pre, post, by simp [he], noSpecial_cons h1 h2 hns, ?_⟩
          rw [hstep, hr]
          have e1 : i + 1 + pre.length = i + (c :: pre).length := by
            simp only [List.length_cons]; omega
          rw [e1]
        · right; right
          refine ⟨noSpecial_cons h1 h2 hns, ?_⟩
          rw [hstep, hr]

theorem drop_cons_succ {data rest : List Char} {c : Char} {n : Nat}
    (h : data.drop n = c :: rest) : data.drop (n + 1) = rest := by
  have h1 : data.drop (n + 1) = (data.drop n).drop 1 := by rw [List.drop_drop]
  rw [h1, h, List.drop_one, List.tail_cons]

theorem drop_shift {data pre post : List Char} {c : Char} {n : Nat}
    (he : data.drop n = pre ++ c :: post) :
    data.drop (n + pre.length + 1) = post := by
  have e : n + pre.length + 1 = n + (pre.length + 1) := by omega
  rw [e, ← List.drop_drop, he]
  have h2 : pre ++ c :: post = (pre ++ [c]) ++ post := by simp
  have h3 : pre.length + 1 = (pre ++ [c]).length := by simp
  rw [h2, h3, List.drop_left]

theorem bound_of_drop {data pre post : List Char} {c : Char} {n : Nat}
    (he : data.drop n = pre ++ c :: post) :
    n + pre.length + 1 ≤ data.length := by
  have := congrArg List.length he
  simp only [List.length_drop, List.length_append, List.length_cons] at this
  omega

theorem take_of_drop {data pre post : List Char} {c : Char} {n : Nat}
    (he : data.drop n = pre ++ c :: post) :
    (data.drop n).take pre.length = pre := by
  rw [he]
  exact List.take_left _ _

theorem absStr_esc_cons (acc : List Char) (c : Char) (rest : List Char) :
    absStr .esc acc (c :: rest) =
      match escClass c with
      | .simple d => absStr .instr (acc ++ [d]) rest
      | .uHex => .uStub
      | .bad => .badEsc := rfl

theorem tokenizeStep_base_eq (data scr : List Char) (idx : Nat) :
    tokenizeStep ⟨scr, .Base, idx⟩ data =
      match dropBytes data idx with
      | none => .done ⟨scr, .Base, idx⟩ .panicked
      | some suffix => baseLoop data scr idx suffix 0 := rfl

theorem tokenizeStep_zc_eq (data scr : List Char) (idx : Nat) :
    tokenizeStep ⟨scr, .ZeroCopyString, idx⟩ data =
      match dropBytes data idx with
      | none => .done ⟨scr, .ZeroCopyString, idx⟩ .panicked
      | some suffix => zcLoop data scr idx suffix 0 := rfl

theorem tokenizeStep_se_eq (data scr : List Char) (idx : Nat) :
    tokenizeStep ⟨scr, .StartEscaping, idx⟩ data =
      match dropBytes data idx with
      | none => .done ⟨scr, .StartEscaping, idx⟩ .panicked
      | some [] => .done ⟨scr, .StartEscaping, idx⟩ (.err .NeedMoreData)
      | some (c :: _) =>
        match escClass c with
        | .simple d => .next ⟨scr ++ [d], .CopyingString, idx + 1⟩
        | .uHex => .next ⟨scr, .ReadingHex 0 4, idx + 1⟩
        | .bad => .done ⟨scr, .StartEscaping, idx⟩ (.err (.WrongEscapeSequence idx)) := rfl

theorem tokenizeStep_copy_eq (data scr : List Char) (idx : Nat) :
    tokenizeStep ⟨scr, .CopyingString, idx⟩ data =
      match dropBytes data idx with
      | none => .done ⟨scr, .CopyingString, idx⟩ .panicked
      | some suffix => copyLoop data idx scr suffix 0 := rfl

theorem tokenizeStep_hex_eq (data scr : List Char) (idx : Nat) (a : Nat) (r : Int) :
    tokenizeStep ⟨scr, .ReadingHex a r, idx⟩ data =
      .done ⟨scr, .ReadingHex a r, idx⟩ .notImplemented := rfl

theorem zcLoop_nil_eq (data scr0 : List Char) (begin i : Nat) :
    zcLoop data scr0 begin [] i =
      match dropBytes data begin with
      | none => .done ⟨scr0, .ZeroCopyString, begin⟩ .panicked
      | some s => .done ⟨s, .CopyingString, utf8Len data⟩ (.err .NeedMoreData) := rfl

theorem tokenizeStep_se_simple (scr : List Char) {data : List Char} {idx : Nat}
    {c d : Char} {rest : List Char}
    (h : dropBytes data idx = some (c :: rest)) (he : escClass c = .simple d) :
    tokenizeStep ⟨scr, .StartEscaping, idx⟩ data =
      .next ⟨scr ++ [d], .CopyingString, idx + 1⟩ := by
  rw [tokenizeStep_se_eq, h]
  show (match escClass c with
        | EscClass.simple d => LoopOut.next ⟨scr ++ [d], .CopyingString, idx + 1⟩
        | EscClass.uHex => LoopOut.next ⟨scr, .ReadingHex 0 4, idx + 1⟩
        | EscClass.bad =>
          LoopOut.done ⟨scr, .StartEscaping, idx⟩
            (.err (.WrongEscapeSequence idx))) = _
  rw [he]

theorem tokenizeStep_se_uHex (scr : List Char) {data : List Char} {idx : Nat}
    {c : Char} {rest : List Char}
    (h : dropBytes data idx = some (c :: rest)) (he : escClass c = .uHex) :
    tokenizeStep ⟨scr, .StartEscaping, idx⟩ data =
      .next ⟨scr, .ReadingHex 0 4, idx + 1⟩ := by
  rw [tokenizeStep_se_eq, h]
  show (match escClass c with
        | EscClass.simple d => LoopOut.next ⟨scr ++ [d], .CopyingString, idx + 1⟩
        | EscClass.uHex => LoopOut.next ⟨scr, .ReadingHex 0 4, idx + 1⟩
        | EscClass.bad =>
          LoopOut.done ⟨scr, .StartEscaping, idx⟩
            (.err (.WrongEscapeSequence idx))) = _
  rw [he]

theorem tokenizeStep_se_bad (scr : List Char) {data : List Char} {idx : Nat}
    {c : Char} {rest : List Char}
    (h : dropBytes data idx = some (c :: rest)) (he : escClass c = .bad) :
    tokenizeStep ⟨scr, .StartEscaping, idx⟩ data =
      .done ⟨scr, .StartEscaping, idx⟩ (.err (.WrongEscapeSequence idx)) := by
  rw [tokenizeStep_se_eq, h]
  show (match escClass c with
        | EscClass.simple d => LoopOut.next ⟨scr ++ [d], .CopyingString, idx + 1⟩
        | EscClass.uHex => LoopOut.next ⟨scr, .ReadingHex 0 4, idx + 1⟩
        | EscClass.bad =>
          LoopOut.done ⟨scr, .StartEscaping, idx⟩
            (.err (.WrongEscapeSequence idx))) = _
  rw [he]

theorem absStr_esc_simple {c d : Char} (he : escClass c = .simple d)
    (acc rest : List Char) :
    absStr .esc acc (c :: rest) = absStr .instr (acc ++ [d]) rest := by
  rw [absStr_esc_cons, he]

theorem absStr_esc_uHex {c : Char} (he : escClass c = .uHex)
    (acc rest : List Char) :
    absStr .esc acc (c :: rest) = .uStub := by
  rw [absStr_esc_cons, he]

theorem absStr_esc_bad {c : Char} (he : escClass c = .bad)
    (acc rest : List Char) :
    absStr .esc acc (c :: rest) = .badEsc := by
  rw [absStr_esc_cons, he]

/-- Main correspondence: on a buffer of single-byte characters, one
`tokenize` call from any of the three string states behaves exactly as the
abstract scanner `absStr` on the characters after the cursor. -/
theorem corr : ∀ (k : Nat) (data scr : List Char) (idx : Nat),
    utf8Len data - idx ≤ k → allSingleByte data = true → idx ≤ data.length →
    (outMatches data (tokenize ⟨scr, .CopyingString, idx⟩ data)
       (absStr .instr scr (data.drop idx)) ∧
     outMatches data (tokenize ⟨scr, .StartEscaping, idx⟩ data)
       (absStr .esc scr (data.drop idx)) ∧
     outMatches data (tokenize ⟨scr, .ZeroCopyString, idx⟩ data)
       (absStr .instr [] (data.drop idx))) := by
  intro k
  induction k with
  | zero =>
    intro data scr idx hk hascii hidx
    have hlen := allSingleByte_utf8Len hascii
    have hsuf : data.drop idx = [] := by
      have e : idx = data.length := by omega
      rw [e, List.drop_length]
    have hdrop : dropBytes data idx = some [] := by
      rw [dropBytes_ascii hascii hidx, hsuf]
    have hixlen : idx = utf8Len data := by omega
    refine ⟨?_, ?_, ?_⟩
    · have hstep : tokenizeStep ⟨scr, .CopyingString, idx⟩ data =
          .done ⟨scr, .CopyingString, utf8Len data⟩ (.err .NeedMoreData) := by
        rw [tokenizeStep_copy_eq, hdrop]
        rfl
      rw [tokenize_done hstep, hsuf]
      exact ⟨rfl, rfl, rfl, rfl⟩
    · have hstep : tokenizeStep ⟨scr, .StartEscaping, idx⟩ data =
          .done ⟨scr, .StartEscaping, idx⟩ (.err .NeedMoreData) := by
        rw [tokenizeStep_se_eq, hdrop]
      rw [tokenize_done hstep, hsuf]
      exact ⟨rfl, rfl, rfl, hixlen⟩
    · have hstep : tokenizeStep ⟨scr, .ZeroCopyString, idx⟩ data =
          .done ⟨[], .CopyingString, utf8Len data⟩ (.err .NeedMoreData) := by
        rw [tokenizeStep_zc_eq, hdrop]
        show zcLoop data scr idx [] 0 = _
        rw [zcLoop_nil_eq, hdrop]
      rw [tokenize_done hstep, hsuf]
      exact ⟨rfl, rfl, rfl, rfl⟩
  | succ k ih =>
    intro data scr idx hk hascii hidx
    have hlen := allSingleByte_utf8Len hascii
    have hdrop : dropBytes data idx = some (data.drop idx) :=
      dropBytes_ascii hascii hidx
    refine ⟨?_, ?_, ?_⟩
    · -- CopyingString
      have hstep0 : tokenizeStep ⟨scr, .CopyingString, idx⟩ data =
          copyLoop data idx scr (data.drop idx) 0 := by
        rw [tokenizeStep_copy_eq, hdrop]
      rcases copyLoop_run data idx (data.drop idx) scr 0 with
        ⟨pre, post, he, hns, hr⟩ | ⟨pre, post, he, hns, hr⟩ | ⟨hns, hr⟩
      · simp only [Nat.zero_add] at hr
        rw [tokenize_done (hstep0.trans hr), he, absStr_instr_quote hns]
        exact ⟨⟨.fromScratch, rfl⟩, rfl⟩
      · simp only [Nat.zero_add] at hr
        have hnext := tokenize_next (hstep0.trans hr)
        have hb2 := bound_of_drop he
        have hd2 := drop_shift he
        have hm := (ih data (scr ++ pre) (idx + pre.length + 1)
          (by omega) hascii (by omega)).2.1
        rw [hd2] at hm
        rw [hnext, he, absStr_instr_slash hns]
        exact hm
      · rw [tokenize_done (hstep0.trans hr), absStr_instr_plain hns]
        exact ⟨rfl, rfl, rfl, rfl⟩
    · -- StartEscaping
      cases hsuf : data.drop idx with
      | nil =>
        have hdropn : dropBytes data idx = some [] := by rw [hdrop, hsuf]
        have hstep : tokenizeStep ⟨scr, .StartEscaping, idx⟩ data =
            .done ⟨scr, .StartEscaping, idx⟩ (.err .NeedMoreData) := by
          rw [tokenizeStep_se_eq, hdropn]
        rw [tokenize_done hstep]
        have hixlen : idx = utf8Len data := by
          have := congrArg List.length hsuf
          simp only [List.length_drop, List.length_nil] at this
          omega
        exact ⟨rfl, rfl, rfl, hixlen⟩
      | cons c rest =>
        have hlt : idx < data.length := by
          have := congrArg List.length hsuf
          simp only [List.length_drop, List.length_cons] at this
          omega
        have hdropc : dropBytes data idx = some (c :: rest) := by rw [hdrop, hsuf]
        have hdnext : data.drop (idx + 1) = rest := drop_cons_succ hsuf
        cases hesc : escClass c with
        | simple d =>
          have hstep := tokenizeStep_se_simple scr hdropc hesc
          have hm := (ih data (scr ++ [d]) (idx + 1)
            (by omega) hascii (by omega)).1
          rw [hdnext] at hm
          rw [tokenize_next hstep, absStr_esc_simple hesc]
          exact hm
        | uHex =>
          have hstep := tokenizeStep_se_uHex scr hdropc hesc
          rw [tokenize_next hstep,
            tokenize_done (tokenizeStep_hex_eq data scr (idx + 1) 0 4),
            absStr_esc_uHex hesc]
          exact rfl
        | bad =>
          have hstep := tokenizeStep_se_bad scr hdropc hesc
          rw [tokenize_done hstep, absStr_esc_bad hesc]
          exact ⟨idx, rfl⟩
    · -- ZeroCopyString
      have hstep0 : tokenizeStep ⟨scr, .ZeroCopyString, idx⟩ data =
          zcLoop data scr idx (data.drop idx) 0 := by
        rw [tokenizeStep_zc_eq, hdrop]
      rcases zcLoop_run hascii scr idx hidx (data.drop idx) 0
          (by rw [Nat.add_zero]) with
        ⟨pre, post, he, hns, hr⟩ | ⟨pre, post, he, hns, hr⟩ | ⟨hns, hr⟩
      · simp only [Nat.zero_add] at hr
        have ht : (data.drop idx).take pre.length = pre := take_of_drop he
        rw [ht] at hr
        rw [tokenize_done (hstep0.trans hr), he, absStr_instr_quote hns]
        simp only [List.nil_append]
        exact ⟨⟨.fromData idx (idx + pre.length + 1 - 1), rfl⟩, rfl⟩
      · simp only [Nat.zero_add] at hr
        have ht : (data.drop idx).take pre.length = pre := take_of_drop he
        rw [ht] at hr
        have hnext := tokenize_next (hstep0.trans hr)
        have hb2 := bound_of_drop he
        have hd2 := drop_shift he
        have hm := (ih data pre (idx + pre.length + 1)
          (by omega) hascii (by omega)).2.1
        rw [hd2] at hm
        rw [hnext, he, absStr_instr_slash hns]
        simp only [List.nil_append]
        exact hm
      · rw [tokenize_done (hstep0.trans hr), absStr_instr_plain hns]
        simp only [List.nil_append]
        exact ⟨rfl, rfl, rfl, rfl⟩

/-- Fueled mirror of the `tokenize` driver, used only to evaluate closed
instances by kernel reduction (`decide`); `tokenize_of_tokenizeN` carries
its verdicts over to `tokenize`. -/
def tokenizeN : Nat → Tokenizer → List Char → Option (Tokenizer × TokOut)
  | 0, _, _ => none
  | fuel + 1, tk, data =>
    match tokenizeStep tk data with
    | .done tk2 out => some (tk2, out)
    | .next tk2 => tokenizeN fuel tk2 data

theorem tokenize_of_tokenizeN :
    ∀ (fuel : Nat) (tk : Tokenizer) (data : List Char) (r : Tokenizer × TokOut),
    tokenizeN fuel tk data = some r → tokenize tk data = r := by
  intro fuel
  induction fuel with
  | zero => intro tk data r h; simp [tokenizeN] at h
  | succ fuel ih =>
    intro tk data r h
    unfold tokenizeN at h
    cases hstep : tokenizeStep tk data with
    | done tk2 out =>
      rw [hstep] at h
      rw [tokenize_done hstep]
      exact Option.some.inj h
    | next tk2 =>
      rw [hstep] at h
      rw [tokenize_next hstep]
      exact ih tk2 data r h

theorem feedChunks_cons (tk : Tokenizer) (ch : List Char)
    (cs : List (List Char)) :
    feedChunks tk (ch :: cs) =
      match tokenize tk ch with
      | (tk2, .err .NeedMoreData) => feedChunks ⟨tk2.scratch, tk2.state, 0⟩ cs
      | r => r := rfl

/-- Fueled mirror of `feedChunks`, for closed evaluation. -/
def feedChunksN (fuel : Nat) : Tokenizer → List (List Char) → Option (Tokenizer × TokOut)
  | tk, [] => some (tk, .err .NeedMoreData)
  | tk, ch :: cs =>
    match tokenizeN fuel tk ch with
    | none => none
    | some (tk2, .err .NeedMoreData) => feedChunksN fuel ⟨tk2.scratch, tk2.state, 0⟩ cs
    | some r => some r

theorem feedChunks_of_feedChunksN :
    ∀ (chunks : List (List Char)) (fuel : Nat) (tk : Tokenizer)
      (r : Tokenizer × TokOut),
    feedChunksN fuel tk chunks = some r → feedChunks tk chunks = r := by
  intro chunks
  induction chunks with
  | nil =>
    intro fuel tk r h
    exact Option.some.inj h
  | cons ch cs ih =>
    intro fuel tk r h
    unfold feedChunksN at h
    cases htok : tokenizeN fuel tk ch with
    | none => rw [htok] at h; cases h
    | some q =>
      obtain ⟨tk2, out⟩ := q
      rw [htok] at h
      have htk := tokenize_of_tokenizeN _ _ _ _ htok
      rw [feedChunks_cons, htk]
      cases out with
      | ok v => exact Option.some.inj h
      | panicked => exact Option.some.inj h
      | notImplemented => exact Option.some.inj h
      | err e =>
        cases e with
        | EndOfData => exact Option.some.inj h
        | NeedMoreData => exact ih fuel _ r h
        | WrongEscapeSequence n => exact Option.some.inj h
        | WrongFormat n => exact Option.some.inj h

/-- Fueled mirror of `parse`, for closed evaluation. -/
def parseN (fuel : Nat) (p : Parser) (data : List Char) : Option (Parser × POut) :=
  match tokenizeN fuel p.tokenizer data with
  | none => none
  | some (tk2, .err e) => some (⟨p.stack, tk2⟩, .err (peFrom e))
  | some (tk2, .panicked) => some (⟨p.stack, tk2⟩, .panicked)
  | some (tk2, .notImplemented) => some (⟨p.stack, tk2⟩, .notImplemented)
  | some (tk2, .ok token) =>
    some (match p.stack.head?, token.jt with
      | none, .OpenObject => (⟨F.InObject :: p.stack, tk2⟩, .ok (F.InObject, none))
      | none, .OpenArray => (⟨F.InArray :: p.stack, tk2⟩, .ok (F.InArray, none))
      | none, .JString => (⟨p.stack, tk2⟩, .ok (F.JString, some token.slice))
      | none, .JNumber => (⟨p.stack, tk2⟩, .ok (F.JNumber, none))
      | none, _ => (⟨p.stack, tk2⟩, .err (.WrongFormat p.tokenizer.index))
      | some .InObject, .JString =>
        (⟨F.Key :: p.stack, tk2⟩, .ok (F.JString, some token.slice))
      | some .InObjectAfterKey, .JString =>
        (⟨p.stack.tail, tk2⟩, .ok (F.JString, some token.slice))
      | _, _ => (⟨p.stack, tk2⟩, .notImplemented))

theorem parse_of_parseN (fuel : Nat) {p : Parser} {data : List Char}
    {r : Parser × POut} (h : parseN fuel p data = some r) : parse p data = r := by
  unfold parseN at h
  cases htok : tokenizeN fuel p.tokenizer data with
  | none => rw [htok] at h; cases h
  | some q =>
    obtain ⟨tk2, out⟩ := q
    rw [htok] at h
    have htk := tokenize_of_tokenizeN _ _ _ _ htok
    unfold parse
    rw [htk]
    cases out with
    | ok v => exact Option.some.inj h
    | err e => exact Option.some.inj h
    | panicked => exact Option.some.inj h
    | notImplemented => exact Option.some.inj h

/-- One resumption step: if a single `tokenize` call on chunk `ch` matches
abstract verdict `a`, and continuing on the remaining chunks matches the
continuation whenever `a` demands more input, then the whole chunked run
matches the composition. -/
theorem feed_resume {ch : List Char} {tk0 tk2 : Tokenizer} {out : TokOut}
    {a : AOut} (htok : tokenize tk0 ch = (tk2, out))
    (hm : outMatches ch (tk2, out) a) (cs : List (List Char))
    (hjoin : ∀ m2 acc2, a = .more m2 acc2 →
      feedMatches (feedChunks ⟨acc2, modeState m2, 0⟩ cs) (absStr m2 acc2 cs.flatten)) :
    feedMatches (feedChunks tk0 (ch :: cs)) (resumeOut a cs.flatten) := by
  cases a with
  | tok t =>
    have hm2 : (∃ src, out = .ok ⟨t, src, .JString⟩) ∧ tk2.state = .Base := hm
    obtain ⟨⟨src, hok⟩, _⟩ := hm2
    subst hok
    rw [feedChunks_cons, htok]
    exact ⟨src, rfl⟩
  | more m2 acc2 =>
    have hm2 : out = .err .NeedMoreData ∧ tk2.state = modeState m2 ∧
        tk2.scratch = acc2 ∧ tk2.index = utf8Len ch := hm
    obtain ⟨h1, h2, h3, _⟩ := hm2
    subst h1
    rw [feedChunks_cons, htok]
    show feedMatches (feedChunks ⟨tk2.scratch, tk2.state, 0⟩ cs) (absStr m2 acc2 cs.flatten)
    rw [h2, h3]
    exact hjoin m2 acc2 rfl
  | badEsc =>
    have hm2 : ∃ n, out = .err (.WrongEscapeSequence n) := hm
    obtain ⟨n, hok⟩ := hm2
    subst hok
    rw [feedChunks_cons, htok]
    exact ⟨n, rfl⟩
  | uStub =>
    have hm2 : out = .notImplemented := hm
    subst hm2
    rw [feedChunks_cons, htok]
    exact rfl

/-- Chunked correspondence, string states: feeding the chunks one by one
(with the caller's cursor reset) matches the abstract scanner on their
concatenation. -/
theorem feed_corr : ∀ (chunks : List (List Char)) (m : AMode) (acc : List Char),
    (∀ ch ∈ chunks, allSingleByte ch = true) →
    feedMatches (feedChunks ⟨acc, modeState m, 0⟩ chunks)
      (absStr m acc chunks.flatten) := by
  intro chunks
  induction chunks with
  | nil =>
    intro m acc _
    cases m with
    | instr => exact rfl
    | esc => exact rfl
  | cons ch cs ih =>
    intro m acc hascii
    have hch : allSingleByte ch = true := hascii ch (by simp)
    have hcs : ∀ c ∈ cs, allSingleByte c = true := fun c hc => hascii c (by simp [hc])
    have hcorr := corr (utf8Len ch) ch acc 0 (by omega) hch (by omega)
    have hm : outMatches ch (tokenize ⟨acc, modeState m, 0⟩ ch)
        (absStr m acc (ch.drop 0)) := by
      cases m with
      | instr => exact hcorr.1
      | esc => exact hcorr.2.1
    rw [List.drop_zero] at hm
    rcases htok : tokenize ⟨acc, modeState m, 0⟩ ch with ⟨tk2, out⟩
    rw [htok] at hm
    rw [List.flatten_cons, absStr_append]
    exact feed_resume htok hm cs (fun m2 acc2 _ => ih m2 acc2 hcs)

/-- Chunked correspondence from the `Base` state, for an input that is one
string literal: empty chunks are skipped and the chunk holding the opening
quote enters the string machinery. -/
theorem feedBase : ∀ (chunks : List (List Char)) (scr : List Char) (s : List Char),
    (∀ ch ∈ chunks, allSingleByte ch = true) → chunks.flatten = '"' :: s →
    feedMatches (feedChunks ⟨scr, .Base, 0⟩ chunks) (absStr .instr [] s) := by
  intro chunks
  induction chunks with
  | nil =>
    intro scr s _ hj
    exact absurd hj (by simp)
  | cons ch cs ih =>
    intro scr s hascii hj
    have hch : allSingleByte ch = true := hascii ch (by simp)
    have hcs : ∀ c ∈ cs, allSingleByte c = true := fun c hc => hascii c (by simp [hc])
    cases ch with
    | nil =>
      have htok : tokenize ⟨scr, .Base, 0⟩ ([] : List Char) =
          (⟨scr, .Base, 0⟩, .err .NeedMoreData) := tokenize_done rfl
      rw [feedChunks_cons, htok]
      show feedMatches (feedChunks ⟨scr, .Base, 0⟩ cs) (absStr .instr [] s)
      exact ih scr s hcs (by simpa using hj)
    | cons c ch2 =>
      simp only [List.flatten_cons, List.cons_append] at hj
      injection hj with h1 h2
      subst h1
      subst h2
      have hstep : tokenizeStep ⟨scr, .Base, 0⟩ ('"' :: ch2) =
          .next ⟨scr, .ZeroCopyString, 1⟩ := by
        rw [tokenizeStep_base_eq]
        show baseLoop ('"' :: ch2) scr 0 ('"' :: ch2) 0 = _
        rw [baseLoop]
        rw [if_pos rfl]
      have htkeq := tokenize_next hstep
      have hcorr := (corr (utf8Len ('"' :: ch2)) ('"' :: ch2) scr 1
        (by omega) hch (by simp)).2.2
      have hd : ('"' :: ch2).drop 1 = ch2 := rfl
      rw [hd] at hcorr
      rcases htok : tokenize ⟨scr, .ZeroCopyString, 1⟩ ('"' :: ch2) with ⟨tk2, out⟩
      rw [htok] at hcorr
      rw [absStr_append]
      exact feed_resume (htkeq.trans htok) hcorr cs
        (fun m2 acc2 _ => feed_corr cs m2 acc2 hcs)

/-- Well-formed raw content of a JSON string literal for the purpose of
the resumption-equivalence claim: between the quotes, every backslash is
followed by a character of the simple escape table (no `\u`, which the
source leaves unimplemented), the closing quote is not anticipated, and
every character is a single UTF-8 byte. -/
def bodyOk : List Char → Bool
  | [] => true
  | c :: rest =>
    if c = '\\' then
      match rest with
      | [] => false
      | e :: rest2 =>
        (match escClass e with
         | .simple _ => true
         | _ => false) && bodyOk rest2
    else if c = '"' then false
    else (c.utf8Size == 1) && bodyOk rest

/-- Decoded text of a well-formed literal body: each simple escape is
replaced by its decoded character. -/
def decodeBody : List Char → List Char
  | [] => []
  | c :: rest =>
    if c = '\\' then
      match rest with
      | [] => []
      | e :: rest2 =>
        (match escClass e with
         | .simple d => [d]
         | _ => []) ++ decodeBody rest2
    else c :: decodeBody rest

theorem escClass_simple_size {c d : Char} (h : escClass c = .simple d) :
    c.utf8Size = 1 := by
  unfold escClass at h
  split_ifs at h with h1 h2 h3 h4 h5 h6 h7 h8 h9 <;>
    first
    | (subst_vars; decide)
    | cases h

theorem decodeBody_esc {e d : Char} (hesc : escClass e = .simple d)
    (rest2 : List Char) :
    decodeBody ('\\' :: e :: rest2) = [d] ++ decodeBody rest2 := by
  simp [decodeBody, hesc]

theorem decodeBody_plain {c : Char} (hc : c ≠ '\\') (rest : List Char) :
    decodeBody (c :: rest) = c :: decodeBody rest := by
  cases rest with
  | nil => simp [decodeBody, hc]
  | cons e rest2 => simp [decodeBody, hc]

theorem absStr_body : ∀ (n : Nat) (body : List Char), body.length ≤ n →
    bodyOk body = true → ∀ (acc tail : List Char),
    absStr .instr acc (body ++ '"' :: tail) = .tok (acc ++ decodeBody body) := by
  intro n
  induction n with
  | zero =>
    intro body hlen _ acc tail
    have : body = [] := by
      cases body with
      | nil => rfl
      | cons c r => simp at hlen
    subst this
    simp [absStr, decodeBody]
  | succ n ih =>
    intro body hlen hok acc tail
    cases body with
    | nil => simp [absStr, decodeBody]
    | cons c rest =>
      by_cases hc : c = '\\'
      · subst hc
        unfold bodyOk at hok
        rw [if_pos rfl] at hok
        cases rest with
        | nil => cases hok
        | cons e rest2 =>
          simp only [Bool.and_eq_true] at hok
          obtain ⟨hesc0, hok2⟩ := hok
          cases hesc : escClass e with
          | simple d =>
            have habs1 : absStr .instr acc (('\\' :: e :: rest2) ++ '"' :: tail) =
                absStr .instr (acc ++ [d]) (rest2 ++ '"' :: tail) := by
              show absStr .esc acc ((e :: rest2) ++ '"' :: tail) = _
              show absStr .esc acc (e :: (rest2 ++ '"' :: tail)) = _
              rw [absStr_esc_simple hesc]
            rw [habs1, ih rest2 (by simp at hlen; omega) hok2 (acc ++ [d]) tail]
            have hdec : decodeBody ('\\' :: e :: rest2) = [d] ++ decodeBody rest2 :=
              decodeBody_esc hesc rest2
            rw [hdec]
            simp
          | uHex => rw [hesc] at hesc0; cases hesc0
          | bad => rw [hesc] at hesc0; cases hesc0
      · unfold bodyOk at hok
        rw [if_neg hc] at hok
        by_cases hq : c = '"'
        · rw [if_pos hq] at hok; cases hok
        · rw [if_neg hq] at hok
          simp only [Bool.and_eq_true] at hok
          obtain ⟨_, hok2⟩ := hok
          have habs1 : absStr .instr acc ((c :: rest) ++ '"' :: tail) =
              absStr .instr (acc ++ [c]) (rest ++ '"' :: tail) := by
            show absStr .instr acc (c :: (rest ++ '"' :: tail)) = _
            rw [absStr]
            rw [if_neg hq, if_neg hc]
          rw [habs1, ih rest (by simp at hlen; omega) hok2 (acc ++ [c]) tail]
          have hdec : decodeBody (c :: rest) = c :: decodeBody rest :=
            decodeBody_plain hc rest
          rw [hdec]
          simp

theorem bodyOk_ascii : ∀ (n : Nat) (body : List Char), body.length ≤ n →
    bodyOk body = true → allSingleByte body = true := by
  intro n
  induction n with
  | zero =>
    intro body hlen _
    cases body with
    | nil => rfl
    | cons c r => simp at hlen
  | succ n ih =>
    intro body hlen hok
    cases body with
    | nil => rfl
    | cons c rest =>
      by_cases hc : c = '\\'
      · subst hc
        unfold bodyOk at hok
        rw [if_pos rfl] at hok
        cases rest with
        | nil => cases hok
        | cons e rest2 =>
          simp only [Bool.and_eq_true] at hok
          obtain ⟨hesc0, hok2⟩ := hok
          have hsz : e.utf8Size = 1 := by
            cases hesc : escClass e with
            | simple d => exact escClass_simple_size hesc
            | uHex => rw [hesc] at hesc0; cases hesc0
            | bad => rw [hesc] at hesc0; cases hesc0
          have h2 := ih rest2 (by simp at hlen; omega) hok2
          simp only [allSingleByte, List.all_cons, Bool.and_eq_true, beq_iff_eq] at h2 ⊢
          exact ⟨by decide, hsz, h2⟩
      · unfold bodyOk at hok
        rw [if_neg hc] at hok
        by_cases hq : c = '"'
        · rw [if_pos hq] at hok; cases hok
        · rw [if_neg hq] at hok
          simp only [Bool.and_eq_true, beq_iff_eq] at hok
          obtain ⟨hsz, hok2⟩ := hok
          have h2 := ih rest (by simp at hlen; omega) hok2
          simp only [allSingleByte, List.all_cons, Bool.and_eq_true, beq_iff_eq] at h2 ⊢
          exact ⟨hsz, h2⟩

/-- Content of a returned string token, if any. -/
def tokenContent (r : Tokenizer × TokOut) : Option (List Char) :=
  match r.2 with
  | .ok v =>
    match v.jt with
    | .JString => some v.slice
    | _ => none
  | _ => none

theorem tokenContent_okJString {r : Tokenizer × TokOut} {s : List Char}
    {src : SliceSrc} (h : r.2 = .ok ⟨s, src, .JString⟩) :
    tokenContent r = some s := by
  unfold tokenContent
  rw [h]


theorem dropBytes_ascii_append {w : List Char} (h : allSingleByte w = true)
    (z : List Char) : dropBytes (w ++ z) w.length = some z := by
  induction w with
  | nil => simp [dropBytes]
  | cons c cs ih =>
    simp only [allSingleByte, List.all_cons, Bool.and_eq_true, beq_iff_eq] at h
    simp only [List.cons_append, List.length_cons]
    unfold dropBytes
    rw [if_pos (by omega : c.utf8Size ≤ cs.length + 1), h.1]
    simp only [Nat.add_sub_cancel]
    exact ih (by simp only [allSingleByte]; exact h.2)

/-- Zero-copy run of the string loop: with no escape and no early quote in
`content`, the loop scans to the closing quote and emits the buffer slice
between the quotes. -/
theorem zcLoop_no_escape (data scr0 : List Char) (begin : Nat) :
    ∀ (content : List Char) (i : Nat) (rest : List Char),
    noSpecial content = true →
    zcLoop data scr0 begin (content ++ '"' :: rest) i =
      (match sliceBytes data begin (begin + (i + content.length) + 1 - 1) with
       | none => .done ⟨scr0, .ZeroCopyString, begin⟩ .panicked
       | some s =>
         .done ⟨scr0, .Base, begin + (i + content.length) + 1⟩
           (.ok ⟨s, .fromData begin (begin + (i + content.length) + 1 - 1),
                 .JString⟩)) := by
  intro content
  induction content with
  | nil =>
    intro i rest _
    show zcLoop data scr0 begin ('"' :: rest) i = _
    rw [zcLoop]
    rw [if_pos rfl]
    simp only [List.length_nil, Nat.add_zero]
  | cons c rest2 ih =>
    intro i rest hns
    simp only [noSpecial, List.all_cons, Bool.and_eq_true, decide_eq_true_eq] at hns
    obtain ⟨⟨h1, h2⟩, h3⟩ := hns
    show zcLoop data scr0 begin (c :: (rest2 ++ '"' :: rest)) i = _
    rw [zcLoop]
    rw [if_neg h1, if_neg h2]
    rw [ih (i + 1) rest (by simp only [noSpecial]; exact h3)]
    have e : begin + (i + 1 + rest2.length) + 1 = begin + (i + (c :: rest2).length) + 1 := by
      simp only [List.length_cons]
      omega
    rw [e]

/-- Claim C2, counterexample: the two-byte character `é` makes the
character-count-as-byte-offset slice land inside a character, so the
zero-copy return panics instead of producing the claimed token. -/
theorem C2_zero_copy_counterexample :
    tokenize ⟨[], .Base, 0⟩ ['"', 'é', '"'] =
      (⟨[], .ZeroCopyString, 1⟩, .panicked) :=
  tokenize_of_tokenizeN 10 _ _ _ (by decide)

/-- Claim C2 (amended to single-byte string content): a string literal of
single-byte characters with no escape and no early quote, closing within
the buffer, yields a `JString` token whose slice is exactly the characters
between the quotes, borrowed from the caller's buffer (`fromData`) at the
byte offsets of that span, and the lexer returns to `Base` just past the
closing quote. -/
theorem C2_zero_copy_amended : ∀ (scr content rest : List Char),
    allSingleByte content = true → noSpecial content = true →
    tokenize ⟨scr, .Base, 0⟩ ('"' :: (content ++ '"' :: rest)) =
      (⟨scr, .Base, content.length + 2⟩,
       .ok ⟨content, .fromData 1 (content.length + 1), .JString⟩) := by
  intro scr content rest hascii hns
  have hstep : tokenizeStep ⟨scr, .Base, 0⟩ ('"' :: (content ++ '"' :: rest)) =
      .next ⟨scr, .ZeroCopyString, 1⟩ := by
    rw [tokenizeStep_base_eq]
    show baseLoop ('"' :: (content ++ '"' :: rest)) scr 0
        ('"' :: (content ++ '"' :: rest)) 0 = _
    rw [baseLoop]
    rw [if_pos rfl]
  rw [tokenize_next hstep]
  have hdrop1 : dropBytes ('"' :: (content ++ '"' :: rest)) 1 =
      some (content ++ '"' :: rest) := by
    simpa using dropBytes_ascii_append
      (show allSingleByte ['"'] = true by decide) (content ++ '"' :: rest)
  have hstep2 : tokenizeStep ⟨scr, .ZeroCopyString, 1⟩
      ('"' :: (content ++ '"' :: rest)) =
      zcLoop ('"' :: (content ++ '"' :: rest)) scr 1 (content ++ '"' :: rest) 0 := by
    rw [tokenizeStep_zc_eq, hdrop1]
  have hslice : sliceBytes ('"' :: (content ++ '"' :: rest)) 1
      (1 + (0 + content.length) + 1 - 1) = some content := by
    have e : 1 + (0 + content.length) + 1 - 1 = 1 + content.length := by omega
    rw [e]
    unfold sliceBytes
    rw [if_pos (by omega)]
    rw [hdrop1, Option.some_bind]
    have e2 : 1 + content.length - 1 = content.length := by omega
    rw [e2]
    exact takeBytes_ascii_append hascii _
  have hloop := zcLoop_no_escape ('"' :: (content ++ '"' :: rest)) scr 1
    content 0 rest hns
  rw [hslice] at hloop
  rw [tokenize_done (hstep2.trans hloop)]
  have e1 : 1 + (0 + content.length) + 1 = content.length + 2 := by omega
  have e2 : 1 + (0 + content.length) + 1 - 1 = content.length + 1 := by omega
  rw [e2, e1]

/-- Claim C2, witness: the amended theorem applied to the literal
`"ab"` followed by further input. -/
theorem C2_zero_copy_witness :
    tokenize ⟨[], .Base, 0⟩ ('"' :: (['a', 'b'] ++ '"' :: [' '])) =
      (⟨[], .Base, 4⟩, .ok ⟨['a', 'b'], .fromData 1 3, .JString⟩) :=
  C2_zero_copy_amended [] ['a', 'b'] [' '] (by decide) (by decide)

/-- Claim C1, counterexample: chunked feeding of `"é\n"` (split between
the `é` and the escape) decodes successfully, while the same input as one
buffer panics on a mid-character slice, so the two runs do not agree. -/
theorem C1_resumption_counterexample :
    tokenContent (feedChunks ⟨[], .Base, 0⟩ [['"', 'é'], ['\\', 'n', '"']]) =
      some ['é', '\n'] ∧
    (tokenize ⟨[], .Base, 0⟩ ['"', 'é', '\\', 'n', '"']).2 = .panicked := by
  have h1 : feedChunks ⟨[], .Base, 0⟩ [['"', 'é'], ['\\', 'n', '"']] =
      (⟨['é', '\n'], .Base, 3⟩, .ok ⟨['é', '\n'], .fromScratch, .JString⟩) :=
    feedChunks_of_feedChunksN _ 10 _ _ (by decide)
  have h2 : tokenize ⟨[], .Base, 0⟩ ['"', 'é', '\\', 'n', '"'] =
      (⟨[], .ZeroCopyString, 1⟩, .panicked) :=
    tokenize_of_tokenizeN 10 _ _ _ (by decide)
  rw [h1, h2]
  exact ⟨rfl, rfl⟩

/-- Claim C1 (amended to single-byte literals): for every well-formed
string-literal body of single-byte characters (escapes drawn from the
simple escape table), splitting the literal into arbitrary buffer chunks
(including mid-escape splits) and feeding them one by one, with the
cursor reset between buffers, produces exactly one `JString` token whose
decoded content equals the one produced by tokenizing the whole literal as
a single buffer; no token is lost or duplicated. -/
theorem C1_resumption_equivalence : ∀ (body : List Char) (chunks : List (List Char)),
    bodyOk body = true →
    chunks.flatten = '"' :: (body ++ ['"']) →
    tokenContent (feedChunks ⟨[], .Base, 0⟩ chunks) = some (decodeBody body) ∧
    tokenContent (tokenize ⟨[], .Base, 0⟩ ('"' :: (body ++ ['"']))) =
      some (decodeBody body) := by
  intro body chunks hok hjoin
  have hab := bodyOk_ascii body.length body le_rfl hok
  have hascii_full : allSingleByte ('"' :: (body ++ ['"'])) = true := by
    apply allSingleByte_of_forall
    intro c hc
    simp only [List.mem_cons, List.mem_append, List.mem_singleton,
      List.not_mem_nil, or_false] at hc
    rcases hc with h | h | h
    · subst h; decide
    · exact allSingleByte_mem hab h
    · subst h; decide
  constructor
  · have hchascii : ∀ ch ∈ chunks, allSingleByte ch = true := by
      intro ch hch
      apply allSingleByte_of_forall
      intro c hc
      have hmem : c ∈ chunks.flatten := List.mem_flatten.mpr ⟨ch, hch, hc⟩
      rw [hjoin] at hmem
      exact allSingleByte_mem hascii_full hmem
    have h := feedBase chunks [] (body ++ ['"']) hchascii hjoin
    rw [absStr_body body.length body le_rfl hok [] []] at h
    have h2 : ∃ src, (feedChunks ⟨[], .Base, 0⟩ chunks).2 =
        .ok ⟨[] ++ decodeBody body, src, .JString⟩ := h
    obtain ⟨src, hs⟩ := h2
    rw [List.nil_append] at hs
    exact tokenContent_okJString hs
  · have hstep : tokenizeStep ⟨[], .Base, 0⟩ ('"' :: (body ++ ['"'])) =
        .next ⟨[], .ZeroCopyString, 1⟩ := by
      rw [tokenizeStep_base_eq]
      show baseLoop ('"' :: (body ++ ['"'])) [] 0 ('"' :: (body ++ ['"'])) 0 = _
      rw [baseLoop]
      rw [if_pos rfl]
    have hcorr := (corr (utf8Len ('"' :: (body ++ ['"'])))
      ('"' :: (body ++ ['"'])) [] 1 (by omega) hascii_full (by simp)).2.2
    have hd : ('"' :: (body ++ ['"'])).drop 1 = body ++ ['"'] := rfl
    rw [hd, absStr_body body.length body le_rfl hok [] []] at hcorr
    rw [tokenize_next hstep]
    have h2 : ∃ src, (tokenize ⟨[], .ZeroCopyString, 1⟩
        ('"' :: (body ++ ['"']))).2 =
        .ok ⟨[] ++ decodeBody body, src, .JString⟩ := hcorr.1
    obtain ⟨src, hs⟩ := h2
    rw [List.nil_append] at hs
    exact tokenContent_okJString hs

/-- Claim C1, witness: the amended theorem applied to the literal
`"a\nb"` split in the middle of the escape sequence. -/
theorem C1_resumption_witness :
    tokenContent (feedChunks ⟨[], .Base, 0⟩ [['"', 'a', '\\'], ['n', 'b', '"']]) =
      some (decodeBody ['a', '\\', 'n', 'b']) ∧
    tokenContent (tokenize ⟨[], .Base, 0⟩
      ('"' :: (['a', '\\', 'n', 'b'] ++ ['"']))) =
      some (decodeBody ['a', '\\', 'n', 'b']) :=
  C1_resumption_equivalence ['a', '\\', 'n', 'b']
    [['"', 'a', '\\'], ['n', 'b', '"']] (by decide) (by decide)


/-- Claim C3: in the `StartEscaping` state the lexer reads exactly one
character after the backslash and interprets it through the fixed table:
the eight simple escapes append their decoded character to the scratch
buffer and transition to `CopyingString` one byte further; `u` begins a
4-hex-digit read (`ReadingHex 0 4`); any other character is the invalid
escape error `WrongEscapeSequence` (the spec's `MalformedInput` family) at
the current offset, with no state change.  Additionally, the input
`"with\nnewlines\n"` (with literal backslash-n escapes) decodes to the
string containing two real line-feed characters. -/
theorem C3_escape_decoding :
    (∀ (tk : Tokenizer) (data : List Char) (c : Char) (rest : List Char),
      dropBytes data tk.index = some (c :: rest) →
      ((c = '"' → tokenize_start_escaping tk data =
          .next ⟨tk.scratch ++ ['"'], .CopyingString, tk.index + 1⟩) ∧
       (c = '\\' → tokenize_start_escaping tk data =
          .next ⟨tk.scratch ++ ['\\'], .CopyingString, tk.index + 1⟩) ∧
       (c = '/' → tokenize_start_escaping tk data =
          .next ⟨tk.scratch ++ ['/'], .CopyingString, tk.index + 1⟩) ∧
       (c = 'b' → tokenize_start_escaping tk data =
          .next ⟨tk.scratch ++ [Char.ofNat 0x08], .CopyingString, tk.index + 1⟩) ∧
       (c = 'f' → tokenize_start_escaping tk data =
          .next ⟨tk.scratch ++ [Char.ofNat 0x0C], .CopyingString, tk.index + 1⟩) ∧
       (c = 'n' → tokenize_start_escaping tk data =
          .next ⟨tk.scratch ++ ['\n'], .CopyingString, tk.index + 1⟩) ∧
       (c = 'r' → tokenize_start_escaping tk data =
          .next ⟨tk.scratch ++ ['\r'], .CopyingString, tk.index + 1⟩) ∧
       (c = 't' → tokenize_start_escaping tk data =
          .next ⟨tk.scratch ++ ['\t'], .CopyingString, tk.index + 1⟩) ∧
       (c = 'u' → tokenize_start_escaping tk data =
          .next ⟨tk.scratch, .ReadingHex 0 4, tk.index + 1⟩) ∧
       (escClass c = .bad → tokenize_start_escaping tk data =
          .done tk (.err (.WrongEscapeSequence tk.index))))) ∧
    tokenize ⟨[], .Base, 0⟩
      ['"', 'w', 'i', 't', 'h', '\\', 'n', 'n', 'e', 'w', 'l', 'i', 'n', 'e', 's', '\\', 'n', '"'] =
      (⟨['w', 'i', 't', 'h', '\n', 'n', 'e', 'w', 'l', 'i', 'n', 'e', 's', '\n'], .Base, 18⟩,
       .ok ⟨['w', 'i', 't', 'h', '\n', 'n', 'e', 'w', 'l', 'i', 'n', 'e', 's', '\n'],
            .fromScratch, .JString⟩) := by
  constructor
  · intro tk data c rest h
    refine ⟨?_, ?_, ?_, ?_, ?_, ?_, ?_, ?_, ?_, ?_⟩
    · intro hc; subst hc; unfold tokenize_start_escaping; rw [h]; rfl
    · intro hc; subst hc; unfold tokenize_start_escaping; rw [h]; rfl
    · intro hc; subst hc; unfold tokenize_start_escaping; rw [h]; rfl
    · intro hc; subst hc; unfold tokenize_start_escaping; rw [h]; rfl
    · intro hc; subst hc; unfold tokenize_start_escaping; rw [h]; rfl
    · intro hc; subst hc; unfold tokenize_start_escaping; rw [h]; rfl
    · intro hc; subst hc; unfold tokenize_start_escaping; rw [h]; rfl
    · intro hc; subst hc; unfold tokenize_start_escaping; rw [h]; rfl
    · intro hc; subst hc; unfold tokenize_start_escaping; rw [h]; rfl
    · intro hbad
      unfold tokenize_start_escaping
      rw [h]
      show (match escClass c with
            | EscClass.simple d =>
              LoopOut.next ⟨tk.scratch ++ [d], .CopyingString, tk.index + 1⟩
            | EscClass.uHex =>
              LoopOut.next ⟨tk.scratch, .ReadingHex 0 4, tk.index + 1⟩
            | EscClass.bad =>
              LoopOut.done tk (.err (.WrongEscapeSequence tk.index))) = _
      rw [hbad]
  · exact tokenize_of_tokenizeN 20 _ _ _ (by decide)

/-- Claim C3, witness: the escape table clause at `n`, in the middle of a
buffer, resuming at cursor 1. -/
theorem C3_escape_witness :
    tokenize_start_escaping ⟨['x'], .StartEscaping, 1⟩ ['?', 'n', '"'] =
      .next ⟨['x', '\n'], .CopyingString, 2⟩ :=
  ((C3_escape_decoding.1 ⟨['x'], .StartEscaping, 1⟩ ['?', 'n', '"'] 'n' ['"']
    (by decide)).2.2.2.2.2.1) rfl

/-- Single-character token classification table of the `Base` state. -/
def structuralJT (c : Char) : Option JT :=
  if c = '{' then some .OpenObject
  else if c = '}' then some .CloseObject
  else if c = '[' then some .OpenArray
  else if c = ']' then some .CloseArray
  else if c = ':' then some .Colon
  else if c = ',' then some .Comma
  else none

theorem baseLoop_ws_skip : ∀ (w : List Char),
    (∀ x ∈ w, rustIsWhitespace x = true) →
    ∀ (data scr : List Char) (n : Nat) (tail : List Char) (i : Nat),
    baseLoop data scr n (w ++ tail) i = baseLoop data scr n tail (i + w.length) := by
  intro w
  induction w with
  | nil =>
    intro _ data scr n tail i
    rfl
  | cons x w2 ih =>
    intro hw data scr n tail i
    have hx : rustIsWhitespace x = true := hw x (by simp)
    have h1 : ¬ x = '"' := by intro he; subst he; exact absurd hx (by decide)
    have h2 : ¬ x = '{' := by intro he; subst he; exact absurd hx (by decide)
    have h3 : ¬ x = '}' := by intro he; subst he; exact absurd hx (by decide)
    have h4 : ¬ x = '[' := by intro he; subst he; exact absurd hx (by decide)
    have h5 : ¬ x = ']' := by intro he; subst he; exact absurd hx (by decide)
    have h6 : ¬ x = ':' := by intro he; subst he; exact absurd hx (by decide)
    have h7 : ¬ x = ',' := by intro he; subst he; exact absurd hx (by decide)
    show baseLoop data scr n (x :: (w2 ++ tail)) i = _
    rw [baseLoop]
    rw [if_neg h1, if_neg h2, if_neg h3, if_neg h4, if_neg h5, if_neg h6,
      if_neg h7, if_pos hx]
    rw [ih (fun y hy => hw y (by simp [hy])) data scr n tail (i + 1)]
    have e : i + 1 + w2.length = i + (x :: w2).length := by
      simp only [List.length_cons]
      omega
    rw [e]

theorem takeBytes_one {c : Char} (hc : c.utf8Size = 1) (rest : List Char) :
    takeBytes (c :: rest) 1 = some [c] := by
  have h := takeBytes_ascii_append
    (show allSingleByte [c] = true by simp [allSingleByte, hc]) rest
  simpa using h

/-- Claim C4, counterexample: a NO-BREAK SPACE (U+00A0, two UTF-8 bytes)
is whitespace for `char::is_whitespace`, and skipping it desynchronizes
the character count from the byte offset, so classifying the following
`{` panics instead of returning the claimed `OpenObject` token. -/
theorem C4_base_counterexample :
    tokenize ⟨[], .Base, 0⟩ [Char.ofNat 0xA0, '{'] =
      (⟨[], .Base, 2⟩, .panicked) :=
  tokenize_of_tokenizeN 10 _ _ _ (by decide)

/-- Claim C4 (amended to single-byte whitespace): from the `Base` state
the lexer skips whitespace; a structural character is returned as a
single-character token of the matching kind sliced from the buffer; a
quote switches to the string state and continues within the same call
(the call equals the call in the `ZeroCopyString` state just past the
quote); any other non-whitespace character is `WrongFormat` at its
offset (the prototype has no number scan: the claimed number/literal
delegation never happens, only this error branch); a buffer of
whitespace only is `NeedMoreData` with the tokenizer unchanged. -/
theorem C4_base_classification : ∀ (scr w : List Char) (c : Char) (rest : List Char),
    (∀ x ∈ w, rustIsWhitespace x = true) → allSingleByte w = true →
    ((∀ jt, structuralJT c = some jt →
        tokenize ⟨scr, .Base, 0⟩ (w ++ c :: rest) =
          (⟨scr, .Base, w.length + 1⟩,
           .ok ⟨[c], .fromData w.length (w.length + 1), jt⟩)) ∧
     (c = '"' →
        tokenize ⟨scr, .Base, 0⟩ (w ++ c :: rest) =
          tokenize ⟨scr, .ZeroCopyString, w.length + 1⟩ (w ++ c :: rest)) ∧
     (structuralJT c = none → c ≠ '"' → rustIsWhitespace c = false →
        tokenize ⟨scr, .Base, 0⟩ (w ++ c :: rest) =
          (⟨scr, .Base, 0⟩, .err (.WrongFormat w.length))) ∧
     tokenize ⟨scr, .Base, 0⟩ w = (⟨scr, .Base, 0⟩, .err .NeedMoreData)) := by
  intro scr w c rest hw hascii
  have hdropw : dropBytes (w ++ c :: rest) w.length = some (c :: rest) :=
    dropBytes_ascii_append hascii _
  have hstep0 : tokenizeStep ⟨scr, .Base, 0⟩ (w ++ c :: rest) =
      baseLoop (w ++ c :: rest) scr 0 (w ++ c :: rest) 0 := by
    rw [tokenizeStep_base_eq]
    have h0 : dropBytes (w ++ c :: rest) 0 = some (w ++ c :: rest) := by
      cases w <;> rfl
    rw [h0]
  have hskip := baseLoop_ws_skip w hw (w ++ c :: rest) scr 0 (c :: rest) 0
  refine ⟨?_, ?_, ?_, ?_⟩
  · intro jt hjt
    have hsz : c.utf8Size = 1 := by
      unfold structuralJT at hjt
      split_ifs at hjt with g1 g2 g3 g4 g5 g6 <;>
        first
        | (subst_vars; decide)
        | cases hjt
    have hslice : sliceBytes (w ++ c :: rest) w.length (w.length + 1) =
        some [c] := by
      unfold sliceBytes
      rw [if_pos (by omega), hdropw, Option.some_bind]
      have e : w.length + 1 - w.length = 1 := by omega
      rw [e]
      exact takeBytes_one hsz rest
    have hdone : baseLoop (w ++ c :: rest) scr 0 (c :: rest) (0 + w.length) =
        .done ⟨scr, .Base, w.length + 1⟩
          (.ok ⟨[c], .fromData w.length (w.length + 1), jt⟩) := by
      unfold structuralJT at hjt
      split_ifs at hjt with g1 g2 g3 g4 g5 g6
      · subst g1; cases hjt
        rw [baseLoop]
        rw [if_neg (by decide), if_pos rfl]
        unfold baseLoop.baseEmit
        simp only [Nat.zero_add]
        rw [hslice]
      · subst g2; cases hjt
        rw [baseLoop]
        rw [if_neg (by decide), if_neg (by decide), if_pos rfl]
        unfold baseLoop.baseEmit
        simp only [Nat.zero_add]
        rw [hslice]
      · subst g3; cases hjt
        rw [baseLoop]
        rw [if_neg (by decide), if_neg (by decide), if_neg (by decide), if_pos rfl]
        unfold baseLoop.baseEmit
        simp only [Nat.zero_add]
        rw [hslice]
      · subst g4; cases hjt
        rw [baseLoop]
        rw [if_neg (by decide), if_neg (by decide), if_neg (by decide),
          if_neg (by decide), if_pos rfl]
        unfold baseLoop.baseEmit
        simp only [Nat.zero_add]
        rw [hslice]
      · subst g5; cases hjt
        rw [baseLoop]
        rw [if_neg (by decide), if_neg (by decide), if_neg (by decide),
          if_neg (by decide), if_neg (by decide), if_pos rfl]
        unfold baseLoop.baseEmit
        simp only [Nat.zero_add]
        rw [hslice]
      · subst g6; cases hjt
        rw [baseLoop]
        rw [if_neg (by decide), if_neg (by decide), if_neg (by decide),
          if_neg (by decide), if_neg (by decide), if_neg (by decide), if_pos rfl]
        unfold baseLoop.baseEmit
        simp only [Nat.zero_add]
        rw [hslice]
    rw [tokenize_done (hstep0.trans (hskip.trans hdone))]
  · intro hc
    subst hc
    have hnext : baseLoop (w ++ '"' :: rest) scr 0 ('"' :: rest) (0 + w.length) =
        .next ⟨scr, .ZeroCopyString, w.length + 1⟩ := by
      rw [baseLoop]
      rw [if_pos rfl]
      simp only [Nat.zero_add]
    rw [tokenize_next (hstep0.trans (hskip.trans hnext))]
  · intro hjt hq hws
    have hne : ∀ y : Char, structuralJT y = none → ¬ y = '{' ∧ ¬ y = '}' ∧
        ¬ y = '[' ∧ ¬ y = ']' ∧ ¬ y = ':' ∧ ¬ y = ',' := by
      intro y hy
      unfold structuralJT at hy
      split_ifs at hy with g1 g2 g3 g4 g5 g6
      exact ⟨g1, g2, g3, g4, g5, g6⟩
    obtain ⟨g1, g2, g3, g4, g5, g6⟩ := hne c hjt
    have hdone : baseLoop (w ++ c :: rest) scr 0 (c :: rest) (0 + w.length) =
        .done ⟨scr, .Base, 0⟩ (.err (.WrongFormat w.length)) := by
      rw [baseLoop]
      rw [if_neg hq, if_neg g1, if_neg g2, if_neg g3, if_neg g4, if_neg g5,
        if_neg g6, if_neg (by simp [hws])]
      simp only [Nat.zero_add]
    rw [tokenize_done (hstep0.trans (hskip.trans hdone))]
  · have hstepw : tokenizeStep ⟨scr, .Base, 0⟩ w = baseLoop w scr 0 w 0 := by
      rw [tokenizeStep_base_eq]
      have h0 : dropBytes w 0 = some w := by cases w <;> rfl
      rw [h0]
    have hskipw := baseLoop_ws_skip w hw w scr 0 [] 0
    rw [List.append_nil] at hskipw
    have hdone : baseLoop w scr 0 ([] : List Char) (0 + w.length) =
        .done ⟨scr, .Base, 0⟩ (.err .NeedMoreData) := rfl
    rw [tokenize_done (hstepw.trans (hskipw.trans hdone))]

/-- Claim C4, witness: the structural clause of the amended theorem at a
space followed by an opening brace. -/
theorem C4_base_witness :
    tokenize ⟨[], .Base, 0⟩ ([' '] ++ '{' :: ['x']) =
      (⟨[], .Base, 2⟩, .ok ⟨['{'], .fromData 1 2, .OpenObject⟩) :=
  (C4_base_classification [] [' '] '{' ['x'] (by decide) (by decide)).1
    JT.OpenObject rfl


/-! ### Claims C5-C8: the structural parser

The spec describes a structural parser with `UnbalancedClose`,
`CapacityExceeded`, end-of-document signalling, Path tracking and an
`AfterKey` frame.  The source's `Parser::parse` implements none of this:
its error type has no such variants, its stack is an unbounded `Vec`,
and every `(stack.last(), token)` pair outside the four written arms hits
`unimplemented!()`.  The theorems below evaluate `parse` on the spec's own
scenarios and record what the code actually does. -/

/-- Claim C5 (code bug): an unmatched `]` is NOT reported as
`UnbalancedClose` (no such variant exists in the source).  With an empty
stack the parser returns `WrongFormat 0`; with `InObject` on top of the
stack the `(Some(InObject), CloseArray)` pair falls into the source's
`unimplemented!()` catch-all, i.e. the process panics. -/
theorem C5_unbalanced_close :
    parse ⟨[], ⟨[], .Base, 0⟩⟩ [']'] =
      (⟨[], ⟨[], .Base, 1⟩⟩, .err (.WrongFormat 0)) ∧
    parse ⟨[F.InObject], ⟨[], .Base, 1⟩⟩ ['{', ']'] =
      (⟨[F.InObject], ⟨[], .Base, 2⟩⟩, .notImplemented) :=
  ⟨parse_of_parseN 10 (by decide), parse_of_parseN 10 (by decide)⟩

/-- Claim C6 (code bug): on `{}` the first `parse` call does report the
object opening, but the second call — which the spec says yields
`EndObject` and then a clean end-of-document — hits the source's
`unimplemented!()` catch-all on the pair `(Some(InObject), CloseObject)`:
the stack never returns to empty and no end-of-document signal exists. -/
theorem C6_empty_object :
    parse ⟨[], ⟨[], .Base, 0⟩⟩ ['{', '}'] =
      (⟨[F.InObject], ⟨[], .Base, 1⟩⟩, .ok (F.InObject, none)) ∧
    parse ⟨[F.InObject], ⟨[], .Base, 1⟩⟩ ['{', '}'] =
      (⟨[F.InObject], ⟨[], .Base, 2⟩⟩, .notImplemented) :=
  ⟨parse_of_parseN 10 (by decide), parse_of_parseN 10 (by decide)⟩

/-- Claim C7 (code bug): there is no `CapacityExceeded` in the source
(the stack is an unbounded `std::vec::Vec`, not the imported `ArrayVec`),
and nesting depth 2 already panics: `[[` hits `unimplemented!()` on the
pair `(Some(InArray), OpenArray)` at the second bracket. -/
theorem C7_bounded_nesting :
    parse ⟨[], ⟨[], .Base, 0⟩⟩ ['[', '['] =
      (⟨[F.InArray], ⟨[], .Base, 1⟩⟩, .ok (F.InArray, none)) ∧
    parse ⟨[F.InArray], ⟨[], .Base, 1⟩⟩ ['[', '['] =
      (⟨[F.InArray], ⟨[], .Base, 2⟩⟩, .notImplemented) :=
  ⟨parse_of_parseN 10 (by decide), parse_of_parseN 10 (by decide)⟩

/-- Claim C8 (code bug): with `InObject` on top and a string token `"k"`,
the source pushes `F::Key` — not the `AfterKey` frame the spec names
(`F::InObjectAfterKey` exists and is a different variant) — and returns
the generic pair `(F::JString, Some("k"))`: there is no `ObjectKey` event
and no Path to append `.k` to. -/
theorem C8_object_key :
    parse ⟨[F.InObject], ⟨[], .Base, 1⟩⟩ ['{', '"', 'k', '"'] =
      (⟨[F.Key, F.InObject], ⟨[], .Base, 4⟩⟩, .ok (F.JString, some ['k'])) ∧
    F.Key ≠ F.InObjectAfterKey :=
  ⟨parse_of_parseN 10 (by decide), by decide⟩

/-! ### Claim C9: slicing safety

The source counts CHARACTERS with `enumerate` and uses the counts as BYTE
offsets.  On buffers of single-byte characters the two agree and no slice
can fail; one multi-byte character before or inside a token breaks the
identification and the very first slice panics. -/

/-- On single-byte data an in-bounds structural emission never panics. -/
theorem baseEmit_no_panic {data : List Char} (hascii : allSingleByte data = true)
    {scr : List Char} {n i : Nat} (hlt : n + i < data.length) (jt : JT)
    {tk2 : Tokenizer} {out : TokOut}
    (h : baseLoop.baseEmit data scr n i jt = .done tk2 out) : out ≠ .panicked := by
  unfold baseLoop.baseEmit at h
  rw [sliceBytes_ascii hascii (by omega) (by omega)] at h
  cases h
  intro hc; cases hc

/-- `baseEmit` always produces a `done` verdict, never a tail call. -/
theorem baseEmit_ne_next {data scr : List Char} {n i : Nat} {jt : JT}
    {tk2 : Tokenizer} (h : baseLoop.baseEmit data scr n i jt = .next tk2) :
    False := by
  unfold baseLoop.baseEmit at h
  split at h <;> cases h

/-- On single-byte data, `baseLoop` entered with the true suffix at
position `n + i` never reports a slicing panic, and its handoff to the
string scanner stays within bounds. -/
theorem baseLoop_no_panic {data : List Char} (hascii : allSingleByte data = true)
    (scr : List Char) (n : Nat) :
    ∀ (suffix : List Char) (i : Nat), suffix = data.drop (n + i) →
    ((∀ tk2 out, baseLoop data scr n suffix i = .done tk2 out →
        out ≠ .panicked) ∧
     (∀ tk2, baseLoop data scr n suffix i = .next tk2 →
        tk2.state = .ZeroCopyString ∧ tk2.index ≤ data.length)) := by
  intro suffix
  induction suffix with
  | nil =>
    intro i hsuf
    constructor
    · intro tk2 out h
      simp only [baseLoop] at h
      cases h
      intro hc; cases hc
    · intro tk2 h
      simp only [baseLoop] at h
      cases h
  | cons c rest ih =>
    intro i hsuf
    have hlt : n + i < data.length := by
      by_contra hle
      rw [List.drop_eq_nil_of_le (by omega)] at hsuf
      cases hsuf
    have hrest : rest = data.drop (n + (i + 1)) := by
      have h1 := drop_cons_succ hsuf.symm
      rw [show n + (i + 1) = n + i + 1 from by omega]
      exact h1.symm
    constructor
    · intro tk2 out h
      unfold baseLoop at h
      split at h
      · cases h
      · split at h
        · exact baseEmit_no_panic hascii hlt _ h
        · split at h
          · exact baseEmit_no_panic hascii hlt _ h
          · split at h
            · exact baseEmit_no_panic hascii hlt _ h
            · split at h
              · exact baseEmit_no_panic hascii hlt _ h
              · split at h
                · exact baseEmit_no_panic hascii hlt _ h
                · split at h
                  · exact baseEmit_no_panic hascii hlt _ h
                  · split at h
                    · exact (ih (i + 1) hrest).1 tk2 out h
                    · cases h
                      intro hc; cases hc
    · intro tk2 h
      unfold baseLoop at h
      split at h
      · cases h
        refine ⟨rfl, ?_⟩
        show n + i + 1 ≤ data.length
        omega
      · split at h
        · exact (baseEmit_ne_next h).elim
        · split at h
          · exact (baseEmit_ne_next h).elim
          · split at h
            · exact (baseEmit_ne_next h).elim
            · split at h
              · exact (baseEmit_ne_next h).elim
              · split at h
                · exact (baseEmit_ne_next h).elim
                · split at h
                  · exact (baseEmit_ne_next h).elim
                  · split at h
                    · exact (ih (i + 1) hrest).2 tk2 h
                    · cases h

/-- Every abstract verdict rules out a slicing panic. -/
theorem outMatches_ne_panicked {data : List Char} {r : Tokenizer × TokOut}
    {a : AOut} (h : outMatches data r a) : r.2 ≠ .panicked := by
  cases a with
  | tok t =>
    obtain ⟨⟨src, he⟩, _⟩ := h
    rw [he]; intro hc; cases hc
  | more m acc => rw [h.1]; intro hc; cases hc
  | badEsc =>
    obtain ⟨nn, he⟩ := h
    rw [he]; intro hc; cases hc
  | uStub => rw [h]; intro hc; cases hc

/-- Claim C9, counterexample to the stated generality: the claim promises
panic-free slicing for every valid UTF-8 buffer including multi-byte
characters.  In the buffer `"aé"` the closing quote is the character at
enumerate index 2 after the opening quote, but byte offset 3 splits the
two-byte `é`, so the emitting slice `&data[1..3]` panics — the model
returns `.panicked` on the very first call. -/
theorem C9_utf8_counterexample :
    tokenize ⟨[], .Base, 0⟩ ['"', 'a', 'é', '"'] =
      (⟨[], .ZeroCopyString, 1⟩, .panicked) :=
  tokenize_of_tokenizeN 10 _ _ _ (by decide)

/-- Claim C9 (amended): the slicing-safety claim holds exactly on buffers
of single-byte characters, where the source's character counts coincide
with byte offsets: from any state whose cursor is within the buffer,
`tokenize` never panics on slicing. -/
theorem C9_utf8_safety (tk : Tokenizer) (data : List Char)
    (hascii : allSingleByte data = true) (hidx : tk.index ≤ data.length) :
    (tokenize tk data).2 ≠ .panicked := by
  obtain ⟨scr, st, idx⟩ := tk
  have hidx2 : idx ≤ data.length := hidx
  cases st with
  | Base =>
    have hdrop := dropBytes_ascii hascii hidx2
    have hstep : tokenizeStep ⟨scr, .Base, idx⟩ data =
        baseLoop data scr idx (data.drop idx) 0 := by
      rw [tokenizeStep_base_eq, hdrop]
    have hbl := baseLoop_no_panic hascii scr idx (data.drop idx) 0
      (by rw [Nat.add_zero])
    cases hb : baseLoop data scr idx (data.drop idx) 0 with
    | done tk2 out =>
      rw [tokenize_done (hstep.trans hb)]
      exact hbl.1 tk2 out hb
    | next tk2 =>
      obtain ⟨hstate, hle⟩ := hbl.2 tk2 hb
      rw [tokenize_next (hstep.trans hb)]
      obtain ⟨scr2, st2, idx2⟩ := tk2
      have hle2 : idx2 ≤ data.length := hle
      have hstate2 : st2 = .ZeroCopyString := hstate
      subst hstate2
      exact outMatches_ne_panicked
        ((corr (utf8Len data) data scr2 idx2 (by omega) hascii hle2).2.2)
  | ZeroCopyString =>
    exact outMatches_ne_panicked
      ((corr (utf8Len data) data scr idx (by omega) hascii hidx2).2.2)
  | StartEscaping =>
    exact outMatches_ne_panicked
      ((corr (utf8Len data) data scr idx (by omega) hascii hidx2).2.1)
  | CopyingString =>
    exact outMatches_ne_panicked
      ((corr (utf8Len data) data scr idx (by omega) hascii hidx2).1)
  | ReadingHex a r =>
    rw [tokenize_done (tokenizeStep_hex_eq data scr idx a r)]
    intro hc; cases hc

/-- Claim C9, witness: the amended theorem at the all-single-byte buffer
`"a"` from the fresh state. -/
theorem C9_utf8_witness :
    allSingleByte ['"', 'a', '"'] = true ∧
    (Tokenizer.mk [] .Base 0).index ≤ (['"', 'a', '"'] : List Char).length ∧
    (tokenize ⟨[], .Base, 0⟩ ['"', 'a', '"']).2 ≠ .panicked :=
  ⟨by decide, by decide,
    C9_utf8_safety ⟨[], .Base, 0⟩ ['"', 'a', '"'] (by decide) (by decide)⟩

/-! ### Claim C10: cursor postcondition on suspension -/

/-- `baseLoop` reports `NeedMoreData` only from the `Base` state (the
whitespace-only-tail case), never from inside a string literal. -/
theorem baseLoop_done_nmd {data scr : List Char} {n : Nat} {tk2 : Tokenizer} :
    ∀ {suffix : List Char} {i : Nat},
    baseLoop data scr n suffix i = .done tk2 (.err .NeedMoreData) →
    tk2.state = .Base := by
  intro suffix
  induction suffix with
  | nil =>
    intro i h
    simp only [baseLoop] at h
    cases h
    rfl
  | cons c rest ih =>
    intro i h
    unfold baseLoop at h
    split at h
    · cases h
    · split at h
      · unfold baseLoop.baseEmit at h; split at h <;> cases h
      · split at h
        · unfold baseLoop.baseEmit at h; split at h <;> cases h
        · split at h
          · unfold baseLoop.baseEmit at h; split at h <;> cases h
          · split at h
            · unfold baseLoop.baseEmit at h; split at h <;> cases h
            · split at h
              · unfold baseLoop.baseEmit at h; split at h <;> cases h
              · split at h
                · unfold baseLoop.baseEmit at h; split at h <;> cases h
                · split at h
                  · exact ih h
                  · cases h

/-- When the zero-copy scan suspends with `NeedMoreData` the tokenizer has
switched to `CopyingString` and its cursor is the buffer's byte length. -/
theorem zcLoop_done_nmd {data scr0 : List Char} {begin : Nat} {tk2 : Tokenizer} :
    ∀ {suffix : List Char} {i : Nat},
    zcLoop data scr0 begin suffix i = .done tk2 (.err .NeedMoreData) →
    tk2.state = .CopyingString ∧ tk2.index = utf8Len data := by
  intro suffix
  induction suffix with
  | nil =>
    intro i h
    unfold zcLoop at h
    split at h
    · cases h
    · cases h
      exact ⟨rfl, rfl⟩
  | cons c rest ih =>
    intro i h
    unfold zcLoop at h
    split at h
    · split at h <;> cases h
    · split at h
      · split at h <;> cases h
      · exact ih h

/-- When the copying scan suspends with `NeedMoreData` the tokenizer stays
in `CopyingString` and its cursor is the buffer's byte length. -/
theorem copyLoop_done_nmd {data : List Char} {n : Nat} {tk2 : Tokenizer} :
    ∀ {suffix scr : List Char} {i : Nat},
    copyLoop data n scr suffix i = .done tk2 (.err .NeedMoreData) →
    tk2.state = .CopyingString ∧ tk2.index = utf8Len data := by
  intro suffix
  induction suffix with
  | nil =>
    intro scr i h
    simp only [copyLoop] at h
    cases h
    exact ⟨rfl, rfl⟩
  | cons c rest ih =>
    intro scr i h
    unfold copyLoop at h
    split at h
    · cases h
    · split at h
      · cases h
      · exact ih h

/-- One dispatch ending in `NeedMoreData` from inside a string literal
leaves the cursor at the buffer's byte length. -/
theorem tokenizeStep_done_nmd {tk : Tokenizer} {data : List Char}
    {tk2 : Tokenizer}
    (h : tokenizeStep tk data = .done tk2 (.err .NeedMoreData))
    (hst : tk2.state = .CopyingString ∨ tk2.state = .StartEscaping) :
    tk2.index = utf8Len data := by
  obtain ⟨scr, st, idx⟩ := tk
  cases st with
  | Base =>
    rw [tokenizeStep_base_eq] at h
    split at h
    · cases h
    · have hb := baseLoop_done_nmd h
      rw [hb] at hst
      rcases hst with h1 | h1 <;> cases h1
  | ZeroCopyString =>
    rw [tokenizeStep_zc_eq] at h
    split at h
    · cases h
    · exact (zcLoop_done_nmd h).2
  | StartEscaping =>
    rw [tokenizeStep_se_eq] at h
    split at h
    · cases h
    · cases h
      rename_i hd
      have hlen := dropBytes_some_len hd
      rw [utf8Len_nil] at hlen
      show idx = utf8Len data
      omega
    · split at h <;> cases h
  | CopyingString =>
    rw [tokenizeStep_copy_eq] at h
    split at h
    · cases h
    · exact (copyLoop_done_nmd h).2
  | ReadingHex a r =>
    rw [tokenizeStep_hex_eq] at h
    cases h

/-- Fuel-indexed form of the cursor postcondition for the whole driver. -/
theorem tokenize_nmd_index :
    ∀ (k : Nat) (tk : Tokenizer) (data : List Char),
    utf8Len data + 1 - tk.index ≤ k →
    ∀ tk2, tokenize tk data = (tk2, .err .NeedMoreData) →
    tk2.state = .CopyingString ∨ tk2.state = .StartEscaping →
    tk2.index = utf8Len data := by
  intro k
  induction k with
  | zero =>
    intro tk data hk tk2 heq hst
    cases hstep : tokenizeStep tk data with
    | done tk3 out =>
      rw [tokenize_done hstep] at heq
      cases heq
      exact tokenizeStep_done_nmd hstep hst
    | next tk3 =>
      obtain ⟨h1, h2⟩ := tokenizeStep_next hstep
      omega
  | succ k ih =>
    intro tk data hk tk2 heq hst
    cases hstep : tokenizeStep tk data with
    | done tk3 out =>
      rw [tokenize_done hstep] at heq
      cases heq
      exact tokenizeStep_done_nmd hstep hst
    | next tk3 =>
      rw [tokenize_next hstep] at heq
      obtain ⟨h1, h2⟩ := tokenizeStep_next hstep
      exact ih tk3 data (by omega) tk2 heq hst

/-- Claim C10: (1) whenever a `tokenize` call returns `NeedMoreData` while
inside a string literal (final state `CopyingString` or `StartEscaping`),
the stored cursor equals the byte length of the current buffer — the
tokenizer never resets it itself; (2) on single-byte buffers the suspended
partial content predicted by the abstract scanner is persisted in
`scratch`, with the same cursor postcondition; (3) resumption therefore
works only because the caller protocol restarts the next buffer at cursor
0, which is exactly what `feedChunks` does after every `NeedMoreData`. -/
theorem C10_cursor_postcondition :
    (∀ (tk : Tokenizer) (data : List Char) (tk2 : Tokenizer),
        tokenize tk data = (tk2, .err .NeedMoreData) →
        tk2.state = .CopyingString ∨ tk2.state = .StartEscaping →
        tk2.index = utf8Len data) ∧
    (∀ (data scr : List Char) (idx : Nat) (m : AMode) (acc : List Char),
        allSingleByte data = true → idx ≤ data.length →
        absStr .instr scr (data.drop idx) = .more m acc →
        tokenize ⟨scr, .CopyingString, idx⟩ data =
          (⟨acc, modeState m, utf8Len data⟩, .err .NeedMoreData)) ∧
    (∀ (tk tk2 : Tokenizer) (ch : List Char) (cs : List (List Char)),
        tokenize tk ch = (tk2, .err .NeedMoreData) →
        feedChunks tk (ch :: cs) =
          feedChunks ⟨tk2.scratch, tk2.state, 0⟩ cs) := by
  refine ⟨?_, ?_, ?_⟩
  · intro tk data tk2 heq hst
    exact tokenize_nmd_index (utf8Len data + 1 - tk.index) tk data
      (Nat.le_refl _) tk2 heq hst
  · intro data scr idx m acc hascii hidx habs
    have h := (corr (utf8Len data) data scr idx (by omega) hascii hidx).1
    rw [habs] at h
    rcases hr : tokenize ⟨scr, .CopyingString, idx⟩ data
      with ⟨⟨scr2, st2, idx2⟩, out⟩
    rw [hr] at h
    obtain ⟨h1, h2, h3, h4⟩ := h
    have e1 : out = .err .NeedMoreData := h1
    have e2 : st2 = modeState m := h2
    have e3 : scr2 = acc := h3
    have e4 : idx2 = utf8Len data := h4
    rw [e1, e2, e3, e4]
  · intro tk tk2 ch cs heq
    rw [feedChunks_cons, heq]

/-- Claim C10, witness: the fresh tokenizer on the truncated literal
`"a` suspends in `CopyingString` with the cursor at the byte length 2. -/
theorem C10_cursor_witness :
    tokenize ⟨[], .Base, 0⟩ ['"', 'a'] =
      (⟨['a'], .CopyingString, 2⟩, .err .NeedMoreData) ∧
    (Tokenizer.mk ['a'] .CopyingString 2).index = utf8Len ['"', 'a'] :=
  ⟨tokenize_of_tokenizeN 10 _ _ _ (by decide),
   C10_cursor_postcondition.1 ⟨[], .Base, 0⟩ ['"', 'a']
     ⟨['a'], .CopyingString, 2⟩
     (tokenize_of_tokenizeN 10 _ _ _ (by decide)) (Or.inl rfl)⟩

end JsonSpec
